import Mathlib

/-!
Verification of the tensorism Ricci-notation compiler
(`parsing.rs`, `types.rs`, `sequentialization.rs`) against its
natural-language specification.  The Rust code is shallowly embedded:
proc-macro token trees become an inductive type, the parser state
(`RicciSequence`, `IndexUse`, `TensorUse`) becomes explicit functional
state, `compile_error!` streams become a `CompileError` value, and the
panics (`unwrap` / `expect`) of the sequentializer become `Option`
failures.  Source spans are dropped: they only feed diagnostics.
-/

namespace Tensorism

/-- proc_macro2 group delimiters. -/
inductive Delimiter where
  | parenthesis
  | bracket
  | brace
  | noneDelim
deriving DecidableEq, Repr

/-- Shallow embedding of a proc_macro2 `TokenTree` (spans dropped). -/
inductive TokenTree where
  | ident (name : String)
  | punct (c : Char)
  | literal (value : String)
  | group (delimiter : Delimiter) (stream : List TokenTree)
deriving Repr

/-- An error produced through `compile_error!`; we keep only the message. -/
structure CompileError where
  message : String
deriving DecidableEq, Repr

mutual
/-- types.rs `RicciFunction`. -/
inductive RicciFunction where
  | mk (inverted_indexes : List String) (sequence : RicciSequence)

/-- types.rs `RicciAlternative`. -/
inductive RicciAlternative where
  | func (f : RicciFunction)
  | tree (t : TokenTree)
  | seq (s : RicciSequence)
  | tensorAccess (tensor_name : String) (indexes : List String)

/-- types.rs `RicciSequence` (span dropped). -/
inductive RicciSequence where
  | mk (use_parens : Bool) (content : List RicciAlternative)
end

/-- Field accessor for `RicciFunction.inverted_indexes`. -/
def RicciFunction.inverted_indexes : RicciFunction → List String
  | .mk l _ => l

/-- Field accessor for `RicciFunction.sequence`. -/
def RicciFunction.sequence : RicciFunction → RicciSequence
  | .mk _ s => s

/-- Field accessor for `RicciSequence.use_parens`. -/
def RicciSequence.use_parens : RicciSequence → Bool
  | .mk p _ => p

/-- Field accessor for `RicciSequence.content`. -/
def RicciSequence.content : RicciSequence → List RicciAlternative
  | .mk _ c => c

/-- types.rs `RicciSequence::initial`. -/
def RicciSequence.initial : RicciSequence := .mk false []

/-- types.rs `RicciSequence::with_parens`. -/
def RicciSequence.with_parens : RicciSequence := .mk true []

/-- types.rs `RicciSequence::naked`. -/
def RicciSequence.naked : RicciSequence := .mk false []

/-- types.rs `RicciSequence::push_token` (`Vec::push` appends at the end). -/
def RicciSequence.push_token (s : RicciSequence) (t : TokenTree) : RicciSequence :=
  .mk s.use_parens (s.content ++ [.tree t])

/-- Helper for `extract_previous_identifiers`: working on the reversed
content, take the run of leading bare-identifier elements. -/
def takeIdentRun : List RicciAlternative → List String × List RicciAlternative
  | .tree (TokenTree.ident n) :: rest =>
    let (run, r) := takeIdentRun rest
    (n :: run, r)
  | l => ([], l)

/-- types.rs `RicciSequence::extract_previous_identifiers`: pop the maximal
trailing run of bare-identifier elements; the popped names come out
last-first (inverted order), together with the shrunk sequence. -/
def RicciSequence.extract_previous_identifiers (s : RicciSequence) :
    List String × RicciSequence :=
  let (run, restRev) := takeIdentRun s.content.reverse
  (run, .mk s.use_parens restRev.reverse)

/-- types.rs `RicciPosition` (span dropped). -/
structure RicciPosition where
  tensor_name : String
  position : Nat
  index_name : String
deriving DecidableEq, Repr

/-- Association-list lookup, standing in for `HashMap::get`. -/
def alLookup {α : Type} : List (String × α) → String → Option α
  | [], _ => none
  | (k, v) :: rest, key => if k = key then some v else alLookup rest key

/-- Association-list in-place modification, standing in for
`HashMap::get_mut` followed by a mutation. -/
def alModify {α : Type} : List (String × α) → String → (α → α) → List (String × α)
  | [], _, _ => []
  | (k, v) :: rest, key, f =>
    if k = key then (k, f v) :: rest else (k, v) :: alModify rest key f

/-- Association-list removal, standing in for `HashMap::remove`. -/
def alRemove {α : Type} : List (String × α) → String → Option (α × List (String × α))
  | [], _ => none
  | (k, v) :: rest, key =>
    if k = key then some (v, rest)
    else (alRemove rest key).map (fun p => (p.1, (k, v) :: p.2))

/-- types.rs `IndexUse`: the index registry.  The `HashMap` becomes an
association list; all iteration in the source goes through
`indexes_in_order`, never through the map itself. -/
structure IndexUse where
  indexes_in_order : List String
  correspondence : List (String × List RicciPosition)
deriving DecidableEq, Repr

/-- types.rs `IndexUse::new`. -/
def IndexUse.new : IndexUse := ⟨[], []⟩

/-- types.rs `IndexUse::declare_new`: returns the new state and whether the
name was actually added (false when already present in the global
`indexes_in_order` list). -/
def IndexUse.declare_new (iu : IndexUse) (index_name : String) : IndexUse × Bool :=
  if iu.indexes_in_order.contains index_name then (iu, false)
  else ({ iu with indexes_in_order := iu.indexes_in_order ++ [index_name] }, true)

/-- types.rs `IndexUse::push`: record a usage site; returns the new state
and whether the site was accepted. -/
def IndexUse.push (iu : IndexUse) (index_name tensor_name : String) (position : Nat) :
    IndexUse × Bool :=
  let p : RicciPosition := ⟨tensor_name, position, index_name⟩
  match alLookup iu.correspondence index_name with
  | some _ =>
    ({ iu with correspondence := alModify iu.correspondence index_name (· ++ [p]) }, true)
  | none =>
    if iu.indexes_in_order.contains index_name then
      ({ iu with correspondence := iu.correspondence ++ [(index_name, [p])] }, true)
    else (iu, false)

/-- Loop body of types.rs `IndexUse::into_iter`. -/
def intoIterGo : List String → List (String × List RicciPosition) →
    Option (List (String × List RicciPosition))
  | [], _ => some []
  | n :: rest, corr =>
    match alRemove corr n with
    | none => none
    | some (ps, corr') => (intoIterGo rest corr').map (fun l => (n, ps) :: l)

/-- types.rs `IndexUse::into_iter`: iterate the declared names in
first-declared order, removing each one's usage list from the map.
`none` models the panic of `.unwrap()` when a declared index has no
recorded usage. -/
def IndexUse.intoIter (iu : IndexUse) : Option (List (String × List RicciPosition)) :=
  intoIterGo iu.indexes_in_order iu.correspondence

/-- types.rs `TensorUse`: the tensor registry (array name → first arity). -/
structure TensorUse where
  tensor_orders : List (String × Nat)
deriving DecidableEq, Repr

/-- types.rs `TensorUse::new`. -/
def TensorUse.new : TensorUse := ⟨[]⟩

/-- types.rs `TensorUse::update_order`: returns the new state and whether
the recorded arity is consistent with this use. -/
def TensorUse.update_order (tu : TensorUse) (tensor_name : String) (order : Nat) :
    TensorUse × Bool :=
  match alLookup tu.tensor_orders tensor_name with
  | some known_order => (tu, known_order == order)
  | none => (⟨tu.tensor_orders ++ [(tensor_name, order)]⟩, true)

/-- types.rs `TensorUse::get_order`; `none` models the `.expect("Missing
tensor name")` panic. -/
def TensorUse.get_order (tu : TensorUse) (tensor_name : String) : Option Nat :=
  alLookup tu.tensor_orders tensor_name

/-- parsing.rs `parse_tensor_indexing`: the contents of a bracket group
must be identifiers separated by commas. -/
def parse_tensor_indexing : List TokenTree → Except CompileError (List String)
  | [] => .ok []
  | .ident n :: rest => (parse_tensor_indexing rest).map (fun l => n :: l)
  | .punct c :: rest =>
    if c = ',' then parse_tensor_indexing rest
    else .error ⟨"Invalid content in indexes"⟩
  | _ :: _ => .error ⟨"Invalid content in indexes"⟩

/-- The declaration loop of parsing.rs `parse_punct` for the binder marker:
declare each index of the (declaration-ordered) list, failing on a
duplicate. -/
def declare_all (iu : IndexUse) : List String → Except CompileError IndexUse
  | [] => .ok iu
  | n :: rest =>
    let r := iu.declare_new n
    if r.2 then declare_all r.1 rest
    else .error ⟨"Illegal reused index name"⟩

/-- The usage-recording loop of parsing.rs `parse_group` for a bracket
group: push each subscript with its axis position into the index
registry, failing on an undeclared index. -/
def push_all (iu : IndexUse) (tensor_name : String) (position : Nat) :
    List String → Except CompileError IndexUse
  | [] => .ok iu
  | n :: rest =>
    let r := iu.push n tensor_name position
    if r.2 then push_all r.1 tensor_name (position + 1) rest
    else .error ⟨"Undeclared index"⟩

/-- parsing.rs `parse_sequence` (with `parse_punct` and `parse_group`
inlined, as they are mutually tail-entangled through the shared token
iterator): one left-to-right pass, recursive on nested groups; the binder
marker `$` consumes the whole remainder of the current stream. -/
def parse_sequence : List TokenTree → RicciSequence → IndexUse → TensorUse →
    Except CompileError (RicciSequence × IndexUse × TensorUse)
  | [], seq, iu, tu => .ok (seq, iu, tu)
  | .punct c :: rest, seq, iu, tu =>
    if c = ';' then .error ⟨"Character \x27;\x27 is forbidden"⟩
    else if c = '$' then
      match seq.extract_previous_identifiers with
      | (inverted_indexes, seq') =>
        match declare_all iu inverted_indexes.reverse with
        | .error e => .error e
        | .ok iu' =>
          match parse_sequence rest RicciSequence.naked iu' tu with
          | .error e => .error e
          | .ok (new_sequence, iu'', tu') =>
            .ok (⟨seq'.use_parens,
                  seq'.content ++ [.func (.mk inverted_indexes new_sequence)]⟩,
                 iu'', tu')
    else parse_sequence rest (seq.push_token (.punct c)) iu tu
  | .group .brace _ :: _, _, _, _ =>
    .error ⟨"Characters \x27\x7b\x27 and \x27\x7d\x27 are forbidden"⟩
  | .group .bracket stream :: rest, seq, iu, tu =>
    match seq.content.getLast? with
    | some (.tree (.ident tensor_name)) =>
      match parse_tensor_indexing stream with
      | .error e => .error e
      | .ok indexes =>
        match push_all iu tensor_name 0 indexes with
        | .error e => .error e
        | .ok iu' =>
          let r := tu.update_order tensor_name indexes.length
          if r.2 then
            parse_sequence rest
              ⟨seq.use_parens,
               seq.content.dropLast ++ [.tensorAccess tensor_name indexes]⟩
              iu' r.1
          else .error ⟨"Inconsistent number of indexes."⟩
    | _ => .error ⟨"Invalid tensor name: an identifier was expected"⟩
  | .group d stream :: rest, seq, iu, tu =>
    let new_seq := if d = .parenthesis then RicciSequence.with_parens
                   else RicciSequence.naked
    match parse_sequence stream new_seq iu tu with
    | .error e => .error e
    | .ok (sub, iu', tu') =>
      parse_sequence rest ⟨seq.use_parens, seq.content ++ [.seq sub]⟩ iu' tu'
  | t :: rest, seq, iu, tu => parse_sequence rest (seq.push_token t) iu tu
termination_by toks _ _ _ => sizeOf toks
decreasing_by all_goals (simp_wf; try omega)

/-- parsing.rs `parse`: run the scope parser from the empty state. -/
def parse (input : List TokenTree) :
    Except CompileError (RicciSequence × IndexUse × TensorUse) :=
  parse_sequence input RicciSequence.initial IndexUse.new TensorUse.new

/-- Fuel-indexed twin of `parse_sequence`, structurally recursive on the
fuel so that concrete runs reduce by iota steps alone; it agrees with
`parse_sequence` whenever the fuel covers the token list\x27s size. -/
def parse_sequence_fuel : Nat → List TokenTree → RicciSequence → IndexUse → TensorUse →
    Except CompileError (RicciSequence × IndexUse × TensorUse)
  | 0, _, _, _, _ => .error ⟨""⟩
  | _+1, [], seq, iu, tu => .ok (seq, iu, tu)
  | fuel+1, .punct c :: rest, seq, iu, tu =>
    if c = ';' then .error ⟨"Character \x27;\x27 is forbidden"⟩
    else if c = '$' then
      match seq.extract_previous_identifiers with
      | (inverted_indexes, seq') =>
        match declare_all iu inverted_indexes.reverse with
        | .error e => .error e
        | .ok iu' =>
          match parse_sequence_fuel fuel rest RicciSequence.naked iu' tu with
          | .error e => .error e
          | .ok (new_sequence, iu'', tu') =>
            .ok (⟨seq'.use_parens,
                  seq'.content ++ [.func (.mk inverted_indexes new_sequence)]⟩,
                 iu'', tu')
    else parse_sequence_fuel fuel rest (seq.push_token (.punct c)) iu tu
  | _+1, .group .brace _ :: _, _, _, _ =>
    .error ⟨"Characters \x27\x7b\x27 and \x27\x7d\x27 are forbidden"⟩
  | fuel+1, .group .bracket stream :: rest, seq, iu, tu =>
    match seq.content.getLast? with
    | some (.tree (.ident tensor_name)) =>
      match parse_tensor_indexing stream with
      | .error e => .error e
      | .ok indexes =>
        match push_all iu tensor_name 0 indexes with
        | .error e => .error e
        | .ok iu' =>
          let r := tu.update_order tensor_name indexes.length
          if r.2 then
            parse_sequence_fuel fuel rest
              ⟨seq.use_parens,
               seq.content.dropLast ++ [.tensorAccess tensor_name indexes]⟩
              iu' r.1
          else .error ⟨"Inconsistent number of indexes."⟩
    | _ => .error ⟨"Invalid tensor name: an identifier was expected"⟩
  | fuel+1, .group d stream :: rest, seq, iu, tu =>
    let new_seq := if d = .parenthesis then RicciSequence.with_parens
                   else RicciSequence.naked
    match parse_sequence_fuel fuel stream new_seq iu tu with
    | .error e => .error e
    | .ok (sub, iu', tu') =>
      parse_sequence_fuel fuel rest ⟨seq.use_parens, seq.content ++ [.seq sub]⟩ iu' tu'
  | fuel+1, t :: rest, seq, iu, tu => parse_sequence_fuel fuel rest (seq.push_token t) iu tu

/-! ## Sequentializer output

The code generator emits Rust token streams through `quote!` templates.
Each template is mirrored by one constructor of the output syntax below,
carrying exactly the fragments the template interpolates. -/

/-- The iterator-chain expression accumulated in the `mappings` variable of
sequentialization.rs `sequentialize_tensor_func`: the index tuple wrapped
in `(0usize..dim).map(move |b| …)` / `(0usize..dim).flat_map(move |b| …)`
levels. -/
inductive Mappings where
  | tuple (direct_indexes : List String)
  | mapIter (dimension_name binder : String) (inner : Mappings)
  | flatMapIter (dimension_name binder : String) (inner : Mappings)
deriving DecidableEq, Repr

/-- Output of sequentialization.rs
`create_dimension_computation_token_stream`: either
`ndarray::ArrayBase::dim(&t)` (registered rank 1: the single size) or
`ndarray::ArrayBase::dim(&t).pos` (a component of the shape tuple). -/
inductive DimComputation where
  | dim (tensor_name : String)
  | dimAt (tensor_name : String) (position : Nat)
deriving DecidableEq, Repr

/-- One statement of the emitted header: a dimension binding
`let d: usize = comp;` or a runtime consistency check
`\x7b let first = c1; let second = c2; if first != second
\x7b panic!(msg) \x7d \x7d`. -/
inductive HeaderStmt where
  | letDim (dimension_name : String) (computation : DimComputation)
  | assertEq (first second : DimComputation) (panic_message : String)
deriving DecidableEq, Repr

/-- One fragment of the emitted body token stream. -/
inductive OutTok where
  | tok (t : TokenTree)
  | parenGroup (content : List OutTok)
  | ugetOne (tensor_name : String) (index : String)
  | ugetMany (tensor_name : String) (indexes : List String)
  | funcStream (mappings : Mappings) (indexes_tuple : List String) (content : List OutTok)
  | fromShapeFn (order : Nat) (dimensions : List String) (direct_indexes : List String)
      (content : List OutTok)
deriving Repr

/-- sequentialization.rs `create_dimension_computation_token_stream`;
`none` models the `get_order` panic on an unregistered tensor name. -/
def create_dimension_computation (tu : TensorUse) (p : RicciPosition) :
    Option DimComputation :=
  match tu.get_order p.tensor_name with
  | none => none
  | some order =>
    some (if order = 1 then .dim p.tensor_name else .dimAt p.tensor_name p.position)

/-- The `mappings` accumulation loop of `sequentialize_tensor_func`:
iterate over the inverted index list with its position, wrapping in `.map`
for the first (innermost) index and `.flat_map` for the others. -/
def build_mappings : Nat → List String → Mappings → Mappings
  | _, [], m => m
  | i, index :: rest, m =>
    let dimension_name := index ++ "_dimension"
    let m' := if i = 0 then Mappings.mapIter dimension_name index m
              else Mappings.flatMapIter dimension_name index m
    build_mappings (i + 1) rest m'

mutual
/-- sequentialization.rs `sequentialize_tensor_func`: lower an index binder
to `mappings.map(|(i, j, …,)| \x7b content \x7d)`. -/
def sequentialize_tensor_func : RicciFunction → OutTok
  | .mk inverted_indexes sequence =>
    let direct_indexes := inverted_indexes.reverse
    let mappings := build_mappings 0 inverted_indexes (.tuple direct_indexes)
    .funcStream mappings direct_indexes (sequentialize_sequence sequence)

/-- sequentialization.rs `sequentialize_sequence`: lower every element and
wrap the result in an explicit parenthesis group when `use_parens`. -/
def sequentialize_sequence : RicciSequence → List OutTok
  | .mk use_parens content =>
    let c := seq_content content
    if use_parens then [.parenGroup c] else c

/-- The element loop of `sequentialize_sequence`. -/
def seq_content : List RicciAlternative → List OutTok
  | [] => []
  | alt :: rest =>
    (match alt with
     | .func f => [sequentialize_tensor_func f]
     | .tree t => [.tok t]
     | .seq sub => sequentialize_sequence sub
     | .tensorAccess name idxs =>
       match idxs with
       | [i] => [.ugetOne name i]
       | _ => [.ugetMany name idxs]) ++ seq_content rest
end

/-- Per-index-entry part of sequentialization.rs `sequentialize_header`:
the binding for the first usage site followed by one equality check per
remaining site, in recorded order.  `none` models the
`positions.first().unwrap()` and `get_order` panics. -/
def header_for_entry (tu : TensorUse) : String × List RicciPosition →
    Option (List HeaderStmt)
  | (name, positions) =>
    match positions with
    | [] => none
    | first :: rest =>
      match create_dimension_computation tu first with
      | none => none
      | some firstComp =>
        (rest.mapM (fun p =>
          (create_dimension_computation tu p).map
            (fun c => HeaderStmt.assertEq firstComp c "Non matching dimensions"))).map
        (fun checks => HeaderStmt.letDim (name ++ "_dimension") firstComp :: checks)

/-- sequentialization.rs `sequentialize_header`; `none` models the panics
(a declared index with no usage, or an unregistered tensor). -/
def sequentialize_header (iu : IndexUse) (tu : TensorUse) : Option (List HeaderStmt) :=
  match iu.intoIter with
  | none => none
  | some entries => (entries.mapM (header_for_entry tu)).map List.flatten

/-- sequentialization.rs `try_extract_func`: array-construction mode is
available exactly for a scope whose content is one binder with a
non-empty index list; otherwise the sequence to lower in expression mode
is returned (for a singleton empty-index binder, its body). -/
def try_extract_func (s : RicciSequence) : Except RicciSequence RicciFunction :=
  match s.content with
  | [RicciAlternative.func f] =>
    if f.inverted_indexes.isEmpty then .error f.sequence else .ok f
  | _ => .error s

/-- sequentialization.rs `sequentialize_shape_creation`: emit
`ndarray::Array::from_shape_fn((d1, …,), |(i1, …,)| \x7b body \x7d)`. -/
def sequentialize_shape_creation (f : RicciFunction) : OutTok :=
  let direct_indexes := f.inverted_indexes.reverse
  let dimensions := direct_indexes.map (fun i => i ++ "_dimension")
  let order := dimensions.length
  .fromShapeFn order dimensions direct_indexes (sequentialize_sequence f.sequence)

/-- sequentialization.rs `sequentialize_body`. -/
def sequentialize_body (s : RicciSequence) : List OutTok :=
  match try_extract_func s with
  | .ok f => [sequentialize_shape_creation f]
  | .error s' => sequentialize_sequence s'

/-- The emitted unit: header statements followed by the lowered body
(wrapped in one brace group by `sequentialize`; the wrapper is implicit
here). -/
structure GeneratedCode where
  header : List HeaderStmt
  body : List OutTok
deriving Repr

/-- sequentialization.rs `sequentialize`; `none` models the panics of
header emission. -/
def sequentialize (s : RicciSequence) (iu : IndexUse) (tu : TensorUse) :
    Option GeneratedCode :=
  (sequentialize_header iu tu).map (fun h => ⟨h, sequentialize_body s⟩)

/-- The whole pipeline: parse, then sequentialize (the glue of the
`make!` proc macro). -/
def compile (input : List TokenTree) : Except CompileError (Option GeneratedCode) :=
  (parse input).map (fun r => sequentialize r.1 r.2.1 r.2.2)

/-! ## Runtime semantics of the emitted code

The generated code runs against real arrays.  A runtime environment maps
each array name to its shape (the list of its axis sizes); this is all
the header and the iterator chains inspect. -/

/-- Semantics of a dimension computation: `dim(&t)` reads the single size
of a rank-1 array, `dim(&t).pos` reads one component of the shape
tuple. -/
def DimComputation.eval (arrays : String → List Nat) : DimComputation → Nat
  | .dim t => (arrays t).headD 0
  | .dimAt t pos => (arrays t).getD pos 0

/-- Run the header statements: bindings extend the environment of
dimension variables, checks fail with their panic message on mismatch. -/
def run_header (arrays : String → List Nat) :
    List HeaderStmt → (String → Nat) → Except String (String → Nat)
  | [], σ => .ok σ
  | .letDim n c :: rest, σ =>
    run_header arrays rest (fun x => if x = n then c.eval arrays else σ x)
  | .assertEq c₁ c₂ msg :: rest, σ =>
    if c₁.eval arrays = c₂.eval arrays then run_header arrays rest σ
    else .error msg

/-- Point update of a valuation. -/
def updVal (σ : String → Nat) (x : String) (v : Nat) : String → Nat :=
  fun y => if y = x then v else σ y

/-- Value of a `Mappings` used as a plain expression (the operand of the
innermost `.map`): only the tuple form is an expression. -/
def Mappings.evalExpr (σ : String → Nat) : Mappings → List Nat
  | .tuple idxs => idxs.map σ
  | _ => []

/-- Sequence of index tuples produced by a `Mappings` iterator chain,
given the values of the dimension variables (`env`) and of the
surrounding bindings (`σ`): `.map` yields one tuple per loop value,
`.flat_map` concatenates the inner sequences. -/
def Mappings.eval (env σ : String → Nat) : Mappings → List (List Nat)
  | .tuple idxs => [idxs.map σ]
  | .mapIter dim b inner =>
    (List.range (env dim)).map (fun v => inner.evalExpr (updVal σ b v))
  | .flatMapIter dim b inner =>
    (List.range (env dim)).flatMap (fun v => Mappings.eval env (updVal σ b v) inner)

/-- Bind a tuple of values to a tuple of names, left to right. -/
def bindTuple (σ : String → Nat) : List String → List Nat → (String → Nat)
  | n :: ns, v :: vs => bindTuple (updVal σ n v) ns vs
  | _, _ => σ

/-- Semantics of the emitted `mappings.map(|(i, …,)| \x7b body \x7d)`
chain, the lowered body being abstracted as a function of the index
valuation. -/
def evalFuncStream {α : Type} (env σ : String → Nat) (m : Mappings)
    (tuple : List String) (body : (String → Nat) → α) : List α :=
  (m.eval env σ).map (fun vals => body (bindTuple σ tuple vals))

/-- All multi-indexes below the given bounds, in lexicographic order with
the first component slowest-varying. -/
def lexTuples : List Nat → List (List Nat)
  | [] => [[]]
  | d :: ds => (List.range d).flatMap (fun v => (lexTuples ds).map (fun t => v :: t))

/-- Topmost iteration level of a `Mappings` chain: its dimension range and
its binder. -/
def Mappings.topLevel : Mappings → Option (String × String)
  | .tuple _ => none
  | .mapIter d b _ => some (d, b)
  | .flatMapIter d b _ => some (d, b)

/-! ## Auxiliary notions used by the statements -/

/-- Whether a token stream contains, at any nesting depth, a
brace-delimited group or a `;` punctuation token. -/
def contains_forbidden : List TokenTree → Bool
  | [] => false
  | .punct c :: rest => (c == ';') || contains_forbidden rest
  | .group d stream :: rest =>
    (d == Delimiter.brace) || contains_forbidden stream || contains_forbidden rest
  | _ :: rest => contains_forbidden rest
termination_by toks => sizeOf toks
decreasing_by all_goals (simp_wf; try omega)

mutual
/-- Whether a parsed binder uses the given name as a tensor subscript. -/
def uses_index_func (name : String) : RicciFunction → Bool
  | .mk _ s => uses_index name s

/-- Whether a parsed scope contains, anywhere, a `TensorAccess` using the
given name as a subscript. -/
def uses_index (name : String) : RicciSequence → Bool
  | .mk _ content => uses_index_content name content

/-- Element-list companion of `uses_index`. -/
def uses_index_content (name : String) : List RicciAlternative → Bool
  | [] => false
  | alt :: rest =>
    (match alt with
     | .func f => uses_index_func name f
     | .tree _ => false
     | .seq s => uses_index name s
     | .tensorAccess _ idxs => idxs.contains name) || uses_index_content name rest
end

/-- The dimension variables bound by a header, in emission order. -/
def letDimNames : List HeaderStmt → List String
  | [] => []
  | .letDim n _ :: rest => n :: letDimNames rest
  | .assertEq _ _ _ :: rest => letDimNames rest

/-- Follows the spec wording for C1 (refinement reference): the axis size
of a usage site is the array's single size if the array's registered rank
is 1, and otherwise the component at the site's axis position of the
array's shape tuple. -/
def specAxisSize (tu : TensorUse) (arrays : String → List Nat) (p : RicciPosition) : Nat :=
  if tu.get_order p.tensor_name = some 1 then (arrays p.tensor_name).headD 0
  else (arrays p.tensor_name).getD p.position 0

/-- Whether an output fragment is the array-construction expression. -/
def OutTok.isFromShapeFn : OutTok → Bool
  | .fromShapeFn _ _ _ _ => true
  | _ => false

/-- A bare-identifier scope element. -/
def identElem (n : String) : RicciAlternative := .tree (.ident n)

/-- Initial (empty) valuation of dimension variables. -/
def initialEnv : String → Nat := fun _ => 0

instance : Inhabited RicciPosition := ⟨⟨"", 0, ""⟩⟩

/-! ## Theorems -/

theorem declare_all_error_iff (names : List String) (iu : IndexUse) :
    declare_all iu names = .error ⟨"Illegal reused index name"⟩ ↔
      ¬ names.Nodup ∨ ∃ n ∈ names, n ∈ iu.indexes_in_order := by
  induction names generalizing iu with
  | nil => simp [declare_all]
  | cons n rest ih =>
    by_cases hmem : n ∈ iu.indexes_in_order
    · simp [declare_all, IndexUse.declare_new, hmem]
    · rw [show declare_all iu (n :: rest)
          = declare_all ⟨iu.indexes_in_order ++ [n], iu.correspondence⟩ rest by
        simp [declare_all, IndexUse.declare_new, hmem]]
      rw [ih]
      constructor
      · rintro (hnd | ⟨m, hm, hmo⟩)
        · exact Or.inl (by simp [List.nodup_cons]; intro _; exact hnd)
        · simp only [List.mem_append, List.mem_singleton] at hmo
          rcases hmo with hmo | rfl
          · exact Or.inr ⟨m, List.mem_cons_of_mem _ hm, hmo⟩
          · exact Or.inl (by simp [List.nodup_cons]; intro h; exact absurd hm h)
      · rintro (hnd | ⟨m, hm, hmo⟩)
        · rw [List.nodup_cons] at hnd
          push_neg at hnd
          by_cases hnr : n ∈ rest
          · exact Or.inr ⟨n, hnr, by simp⟩
          · exact Or.inl (hnd hnr)
        · rcases List.mem_cons.mp hm with rfl | hm'
          · exact absurd hmo hmem
          · exact Or.inr ⟨m, hm', by simp [hmo]⟩

/-- `parse_sequence_fuel` agrees with `parse_sequence` whenever the fuel
covers the token list\x27s size. -/
theorem parse_sequence_fuel_spec (toks : List TokenTree) (seq : RicciSequence)
    (iu : IndexUse) (tu : TensorUse) :
    ∀ fuel : Nat, sizeOf toks ≤ fuel →
      parse_sequence_fuel fuel toks seq iu tu = parse_sequence toks seq iu tu := by
  induction toks, seq, iu, tu using parse_sequence.induct with
  | case1 seq iu tu =>
    intro fuel hf
    cases fuel with
    | zero => simp at hf
    | succ f => simp [parse_sequence_fuel, parse_sequence]
  | case2 rest seq iu tu =>
    intro fuel hf
    cases fuel with
    | zero => simp at hf
    | succ f => simp [parse_sequence_fuel, parse_sequence]
  | case3 rest seq iu tu inv seq2 hext e hdecl hne =>
    intro fuel hf
    cases fuel with
    | zero => simp at hf
    | succ f => simp [parse_sequence_fuel, parse_sequence, hext, hdecl]
  | case4 rest seq iu tu inv seq2 hext iu0 hdecl e hrec hne ih =>
    intro fuel hf
    cases fuel with
    | zero => simp at hf
    | succ f =>
      have hr : sizeOf rest ≤ f := by simp at hf; omega
      simp [parse_sequence_fuel, parse_sequence, hext, hdecl, ih f hr]
  | case5 rest seq iu tu inv seq2 hext iu0 hdecl ns iu2 tu2 hrec hne ih =>
    intro fuel hf
    cases fuel with
    | zero => simp at hf
    | succ f =>
      have hr : sizeOf rest ≤ f := by simp at hf; omega
      simp [parse_sequence_fuel, parse_sequence, hext, hdecl, ih f hr]
  | case6 c rest seq iu tu hc hd ih =>
    intro fuel hf
    cases fuel with
    | zero => simp at hf
    | succ f =>
      have hr : sizeOf rest ≤ f := by simp at hf; omega
      simp [parse_sequence_fuel, parse_sequence, hc, hd, ih f hr]
  | case7 stream tail x x1 x2 =>
    intro fuel hf
    cases fuel with
    | zero => simp at hf
    | succ f => simp [parse_sequence_fuel, parse_sequence]
  | case8 stream rest seq iu tu tn hlast e hpt =>
    intro fuel hf
    cases fuel with
    | zero => simp at hf
    | succ f => simp [parse_sequence_fuel, parse_sequence, hlast, hpt]
  | case9 stream rest seq iu tu tn hlast idxs hpt e hpush =>
    intro fuel hf
    cases fuel with
    | zero => simp at hf
    | succ f => simp [parse_sequence_fuel, parse_sequence, hlast, hpt, hpush]
  | case10 stream rest seq iu tu tn hlast idxs hpt iu0 hpush r hr ih =>
    intro fuel hf
    cases fuel with
    | zero => simp at hf
    | succ f =>
      have hrest : sizeOf rest ≤ f := by simp at hf; omega
      have hr2 : (tu.update_order tn idxs.length).2 = true := by simpa using hr
      simp [parse_sequence_fuel, parse_sequence, hlast, hpt, hpush, hr2, ih f hrest]
  | case11 stream rest seq iu tu tn hlast idxs hpt iu0 hpush r hr =>
    intro fuel hf
    cases fuel with
    | zero => simp at hf
    | succ f =>
      have hr2 : (tu.update_order tn idxs.length).2 = false := by simpa using hr
      simp [parse_sequence_fuel, parse_sequence, hlast, hpt, hpush, hr2]
  | case12 stream rest seq iu tu hno =>
    intro fuel hf
    cases fuel with
    | zero => simp at hf
    | succ f =>
      rcases hl : seq.content.getLast? with _ | alt
      · simp [parse_sequence_fuel, parse_sequence, hl]
      · cases alt with
        | func f0 => simp [parse_sequence_fuel, parse_sequence, hl]
        | seq s2 => simp [parse_sequence_fuel, parse_sequence, hl]
        | tensorAccess n2 idxs => simp [parse_sequence_fuel, parse_sequence, hl]
        | tree t =>
          cases t with
          | ident n2 => exact (hno n2 hl).elim
          | punct c => simp [parse_sequence_fuel, parse_sequence, hl]
          | literal v => simp [parse_sequence_fuel, parse_sequence, hl]
          | group d s2 => simp [parse_sequence_fuel, parse_sequence, hl]
  | case13 d stream rest seq iu tu hb hk nseq e hsub ihsub =>
    intro fuel hf
    cases fuel with
    | zero => simp at hf
    | succ f =>
      cases d with
      | brace => exact absurd rfl hb
      | bracket => exact absurd rfl hk
      | parenthesis =>
        have hstream : sizeOf stream ≤ f := by simp at hf; omega
        have hs : parse_sequence stream RicciSequence.with_parens iu tu = .error e := by
          simpa using hsub
        have ihs : parse_sequence_fuel f stream RicciSequence.with_parens iu tu
            = parse_sequence stream RicciSequence.with_parens iu tu := by
          simpa using ihsub f hstream
        simp [parse_sequence_fuel, parse_sequence, ihs, hs]
      | noneDelim =>
        have hstream : sizeOf stream ≤ f := by simp at hf; omega
        have hs : parse_sequence stream RicciSequence.naked iu tu = .error e := by
          simpa using hsub
        have ihs : parse_sequence_fuel f stream RicciSequence.naked iu tu
            = parse_sequence stream RicciSequence.naked iu tu := by
          simpa using ihsub f hstream
        simp [parse_sequence_fuel, parse_sequence, ihs, hs]
  | case14 d stream rest seq iu tu hb hk nseq ns iu2 tu2 hsub ihsub ihrest =>
    intro fuel hf
    cases fuel with
    | zero => simp at hf
    | succ f =>
      cases d with
      | brace => exact absurd rfl hb
      | bracket => exact absurd rfl hk
      | parenthesis =>
        have hstream : sizeOf stream ≤ f := by simp at hf; omega
        have hrest : sizeOf rest ≤ f := by simp at hf; omega
        have hs : parse_sequence stream RicciSequence.with_parens iu tu
            = .ok (ns, iu2, tu2) := by simpa using hsub
        have ihs : parse_sequence_fuel f stream RicciSequence.with_parens iu tu
            = parse_sequence stream RicciSequence.with_parens iu tu := by
          simpa using ihsub f hstream
        simp [parse_sequence_fuel, parse_sequence, ihs, hs, ihrest f hrest]
      | noneDelim =>
        have hstream : sizeOf stream ≤ f := by simp at hf; omega
        have hrest : sizeOf rest ≤ f := by simp at hf; omega
        have hs : parse_sequence stream RicciSequence.naked iu tu
            = .ok (ns, iu2, tu2) := by simpa using hsub
        have ihs : parse_sequence_fuel f stream RicciSequence.naked iu tu
            = parse_sequence stream RicciSequence.naked iu tu := by
          simpa using ihsub f hstream
        simp [parse_sequence_fuel, parse_sequence, ihs, hs, ihrest f hrest]
  | case15 t rest seq iu tu hp hgb hgk hgd ih =>
    intro fuel hf
    cases fuel with
    | zero => simp at hf
    | succ f =>
      cases t with
      | ident n2 =>
        have hr : sizeOf rest ≤ f := by simp at hf; omega
        simp [parse_sequence_fuel, parse_sequence, ih f hr]
      | literal v =>
        have hr : sizeOf rest ≤ f := by simp at hf; omega
        simp [parse_sequence_fuel, parse_sequence, ih f hr]
      | punct c => exact absurd rfl (hp c)
      | group d s2 => exact absurd rfl (hgd d s2)

/-- C4: the claim asserts that reuse of an index name by two distinct
binders is not rejected.  On the concrete input
`(i $ a[i]) (i $ b[i])` — two sibling binders both declaring `i` — the
parser rejects with "Illegal reused index name", refuting the claim. -/
theorem c4_counterexample :
    parse [TokenTree.group .parenthesis
             [.ident "i", .punct '$', .ident "a", .group .bracket [.ident "i"]],
           TokenTree.group .parenthesis
             [.ident "i", .punct '$', .ident "b", .group .bracket [.ident "i"]]]
      = .error ⟨"Illegal reused index name"⟩ := by
  rw [parse, ← parse_sequence_fuel_spec _ _ _ _ 2000 (by decide)]
  rfl

/-- C4 (amended): duplicate-index detection at a binder marker consults
the global registry of all index names declared so far, not just the
binder's own list: the declaration loop fails with "Illegal reused index
name" exactly when the binder's declaration-ordered index list has an
internal repetition or contains a name already declared by any earlier
(sibling, enclosing, or the same) binder. -/
theorem c4_amended_global_duplicate_check (iu : IndexUse) (names : List String) :
    declare_all iu names = .error ⟨"Illegal reused index name"⟩ ↔
      ¬ names.Nodup ∨ ∃ n ∈ names, n ∈ iu.indexes_in_order :=
  declare_all_error_iff names iu

/-- C5: the claim asserts that a subscript declared only in an earlier,
already-closed sibling binder fails with "Undeclared index".  On the
concrete input `(i $ a[i]) b[i]` — where `b[i]` uses `i` after the binder
declaring it has closed — parsing succeeds, refuting the claim. -/
theorem c5_counterexample :
    parse [TokenTree.group .parenthesis
              [.ident "i", .punct '$', .ident "a", .group .bracket [.ident "i"]],
            TokenTree.ident "b", TokenTree.group .bracket [.ident "i"]]
      = .ok (⟨false, [.seq ⟨true, [.func (.mk ["i"] ⟨false, [.tensorAccess "a" ["i"]]⟩)]⟩,
                      .tensorAccess "b" ["i"]]⟩,
             ⟨["i"], [("i", [⟨"a", 0, "i"⟩, ⟨"b", 0, "i"⟩])]⟩,
             ⟨[("a", 1), ("b", 1)]⟩) := by
  rw [parse, ← parse_sequence_fuel_spec _ _ _ _ 2000 (by decide)]
  rfl

/-- C5 (amended): a tensor subscript is rejected (making the parser fail
with "Undeclared index") exactly when the name has no recorded usage and
was never declared by any binder earlier in the parse; the declaration
set is global and never popped, so names from closed sibling binders are
accepted. -/
theorem c5_amended_global_declaration_check (iu : IndexUse) (idx tn : String) (pos : Nat) :
    (iu.push idx tn pos).2 = false ↔
      alLookup iu.correspondence idx = none ∧ idx ∉ iu.indexes_in_order := by
  unfold IndexUse.push
  cases h : alLookup iu.correspondence idx <;> simp [h]
  by_cases hm : idx ∈ iu.indexes_in_order <;> simp [hm]

/-- C6: a `TensorAccess` whose subscript count differs from the arity
registered at the array's first use makes parsing fail with
"Inconsistent number of indexes.", and `update_order` leaves the registry
untouched in that case, so the registered rank remains the first arity
observed. -/
theorem c6_arity_mismatch_rejected (stream rest : List TokenTree) (seq : RicciSequence)
    (iu iu' : IndexUse) (tu : TensorUse) (name : String) (k : Nat) (indexes : List String)
    (hlast : seq.content.getLast? = some (.tree (.ident name)))
    (hreg : alLookup tu.tensor_orders name = some k)
    (hidx : parse_tensor_indexing stream = .ok indexes)
    (hpush : push_all iu name 0 indexes = .ok iu')
    (hne : indexes.length ≠ k) :
    parse_sequence (.group .bracket stream :: rest) seq iu tu
      = .error ⟨"Inconsistent number of indexes."⟩ ∧
    tu.update_order name indexes.length = (tu, false) := by
  have horder : tu.update_order name indexes.length = (tu, false) := by
    unfold TensorUse.update_order
    simp [hreg, Ne.symm hne, hne]
  refine ⟨?_, horder⟩
  simp [parse_sequence, hlast, hidx, hpush, horder]

/-- Witness for C6: the scope `… a` followed by `[i, i]` with `a`
registered at rank 1 (its subscripts are `["i", "i"]`, of length 2). -/
theorem c6_witness :
    parse_sequence [TokenTree.group .bracket [.ident "i", .punct ',', .ident "i"]]
        ⟨false, [identElem "a"]⟩ ⟨["i"], []⟩ ⟨[("a", 1)]⟩
      = .error ⟨"Inconsistent number of indexes."⟩ ∧
    TensorUse.update_order ⟨[("a", 1)]⟩ "a" (["i", "i"].length) = (⟨[("a", 1)]⟩, false) :=
  c6_arity_mismatch_rejected [.ident "i", .punct ',', .ident "i"] []
    ⟨false, [identElem "a"]⟩ ⟨["i"], []⟩
    ⟨["i"], [("i", [⟨"a", 0, "i"⟩, ⟨"a", 1, "i"⟩])]⟩ ⟨[("a", 1)]⟩ "a" 1 ["i", "i"]
    (by simp [identElem, RicciSequence.content])
    (by simp [alLookup])
    (by simp [parse_tensor_indexing, Except.map])
    (by simp [push_all, IndexUse.push, alLookup, alModify])
    (by decide)

theorem parse_tensor_indexing_forbidden (ts : List TokenTree)
    (h : contains_forbidden ts = true) : ∃ e, parse_tensor_indexing ts = .error e := by
  induction ts with
  | nil => simp [contains_forbidden] at h
  | cons t rest ih =>
    cases t with
    | ident n =>
      rw [show contains_forbidden (TokenTree.ident n :: rest) = contains_forbidden rest by
          simp [contains_forbidden]] at h
      obtain ⟨e, he⟩ := ih h
      exact ⟨e, by simp [parse_tensor_indexing, he, Except.map]⟩
    | punct c =>
      by_cases hc : c = ','
      · subst hc
        simp [contains_forbidden] at h
        obtain ⟨e, he⟩ := ih (by simpa using h)
        exact ⟨e, by simp [parse_tensor_indexing, he]⟩
      · exact ⟨⟨"Invalid content in indexes"⟩, by simp [parse_tensor_indexing, hc]⟩
    | literal v => exact ⟨⟨"Invalid content in indexes"⟩, by simp [parse_tensor_indexing]⟩
    | group d s => exact ⟨⟨"Invalid content in indexes"⟩, by simp [parse_tensor_indexing]⟩

theorem parse_sequence_forbidden (toks : List TokenTree) (seq : RicciSequence)
    (iu : IndexUse) (tu : TensorUse) (h : contains_forbidden toks = true) :
    ∃ e, parse_sequence toks seq iu tu = .error e := by
  induction toks, seq, iu, tu using parse_sequence.induct with
  | case1 seq iu tu => simp [contains_forbidden] at h
  | case2 rest seq iu tu =>
    exact ⟨⟨"Character \x27;\x27 is forbidden"⟩, by simp [parse_sequence]⟩
  | case3 rest seq iu tu inv seq' hext e hdecl hne =>
    exact ⟨e, by simp [parse_sequence, hext, hdecl]⟩
  | case4 rest seq iu tu inv seq' hext iu' hdecl e hrec hne ih =>
    exact ⟨e, by simp [parse_sequence, hext, hdecl, hrec]⟩
  | case5 rest seq iu tu inv seq' hext iu' hdecl ns iu'' tu' hrec hne ih =>
    simp only [contains_forbidden] at h
    have hr : (';' == ';') = true := by decide
    obtain ⟨e, he⟩ := ih (by simpa using h)
    rw [hrec] at he
    exact absurd he (by simp)
  | case6 c rest seq iu tu hc hd ih =>
    simp only [contains_forbidden] at h
    rw [show (c == ';') = false by simpa using hc] at h
    obtain ⟨e, he⟩ := ih (by simpa using h)
    exact ⟨e, by simp [parse_sequence, hc, hd, he]⟩
  | case7 stream tail x x1 x2 =>
    exact ⟨⟨"Characters \x27\x7b\x27 and \x27\x7d\x27 are forbidden"⟩, by simp [parse_sequence]⟩
  | case8 stream rest seq iu tu tn hlast e hpt =>
    exact ⟨e, by simp [parse_sequence, hlast, hpt]⟩
  | case9 stream rest seq iu tu tn hlast idxs hpt e hpush =>
    exact ⟨e, by simp [parse_sequence, hlast, hpt, hpush]⟩
  | case10 stream rest seq iu tu tn hlast idxs hpt iu' hpush r hr ih =>
    have hstream : contains_forbidden stream = false := by
      by_contra hcf
      obtain ⟨e, he⟩ := parse_tensor_indexing_forbidden stream
        (by revert hcf; cases contains_forbidden stream <;> simp)
      rw [he] at hpt
      exact absurd hpt (by simp)
    simp only [contains_forbidden, hstream] at h
    obtain ⟨e, he⟩ := ih (by simpa using h)
    have hr' : (tu.update_order tn idxs.length).2 = true := by simpa using hr
    exact ⟨e, by simp [parse_sequence, hlast, hpt, hpush, hr', he]⟩
  | case11 stream rest seq iu tu tn hlast idxs hpt iu' hpush r hr =>
    have hr' : (tu.update_order tn idxs.length).2 = false := by simpa using hr
    exact ⟨⟨"Inconsistent number of indexes."⟩,
      by simp [parse_sequence, hlast, hpt, hpush, hr']⟩
  | case12 stream rest seq iu tu hno =>
    refine ⟨⟨"Invalid tensor name: an identifier was expected"⟩, ?_⟩
    rcases hl : seq.content.getLast? with _ | alt
    · simp [parse_sequence, hl]
    · cases alt with
      | func f => simp [parse_sequence, hl]
      | seq s => simp [parse_sequence, hl]
      | tensorAccess n idxs => simp [parse_sequence, hl]
      | tree t =>
        cases t with
        | ident n => exact absurd hl (fun hh => hno n hh)
        | punct c => simp [parse_sequence, hl]
        | literal v => simp [parse_sequence, hl]
        | group d s => simp [parse_sequence, hl]
  | case13 d stream rest seq iu tu hb hk nseq e hsub ihsub =>
    cases d with
    | brace => exact absurd rfl hb
    | bracket => exact absurd rfl hk
    | parenthesis =>
      have hs : parse_sequence stream RicciSequence.with_parens iu tu = .error e := by
        simpa using hsub
      exact ⟨e, by simp [parse_sequence, hs]⟩
    | noneDelim =>
      have hs : parse_sequence stream RicciSequence.naked iu tu = .error e := by
        simpa using hsub
      exact ⟨e, by simp [parse_sequence, hs]⟩
  | case14 d stream rest seq iu tu hb hk nseq ns iu'' tu' hsub ihsub ihrest =>
    have hdb : (d == Delimiter.brace) = false := by
      cases d with
      | brace => exact absurd rfl hb
      | _ => rfl
    simp only [contains_forbidden, hdb] at h
    rcases (by simpa using h : contains_forbidden stream = true ∨ contains_forbidden rest = true)
      with hstream | hrest
    · obtain ⟨e, he⟩ := ihsub hstream
      rw [he] at hsub
      exact absurd hsub (by simp)
    · obtain ⟨e, he⟩ := ihrest hrest
      cases d with
      | brace => exact absurd rfl hb
      | bracket => exact absurd rfl hk
      | parenthesis =>
        have hs : parse_sequence stream RicciSequence.with_parens iu tu
            = .ok (ns, iu'', tu') := by simpa using hsub
        exact ⟨e, by simp [parse_sequence, hs, he]⟩
      | noneDelim =>
        have hs : parse_sequence stream RicciSequence.naked iu tu
            = .ok (ns, iu'', tu') := by simpa using hsub
        exact ⟨e, by simp [parse_sequence, hs, he]⟩
  | case15 t rest seq iu tu hp hgb hgk hgd ih =>
    cases t with
    | ident n =>
      simp only [contains_forbidden] at h
      obtain ⟨e, he⟩ := ih h
      exact ⟨e, by simp [parse_sequence, he]⟩
    | literal v =>
      simp only [contains_forbidden] at h
      obtain ⟨e, he⟩ := ih h
      exact ⟨e, by simp [parse_sequence, he]⟩
    | punct c => exact absurd rfl (hp c)
    | group d s => exact absurd rfl (hgd d s)

/-- C7: the claim asserts that a `;` fails with the "forbidden character"
error regardless of nesting depth.  On the concrete input `a[;]` — a `;`
inside a bracketed tensor subscript list — the parser instead fails with
"Invalid content in indexes", refuting the message part of the claim
(parsing does still fail). -/
theorem c7_counterexample :
    parse [TokenTree.ident "a", TokenTree.group .bracket [.punct ';']]
        = .error ⟨"Invalid content in indexes"⟩ ∧
      ("Invalid content in indexes" : String) ≠ "Character \x27;\x27 is forbidden" := by
  constructor
  · rw [parse, ← parse_sequence_fuel_spec _ _ _ _ 2000 (by decide)]
    rfl
  · decide

/-- C7 (amended): any input containing a brace-delimited group or a `;`
anywhere, at any nesting depth, makes parsing fail with a structural
error; a `;` met as a direct element of a scope stream (outside bracket
subscript lists) fails with "Character ';' is forbidden", while inside a
bracket subscript list the failure is reported by the subscript parser
("Invalid content in indexes"). -/
theorem c7_amended_forbidden_tokens (toks rest : List TokenTree) (seq : RicciSequence)
    (iu : IndexUse) (tu : TensorUse) (h : contains_forbidden toks = true) :
    (∃ e, parse_sequence toks seq iu tu = .error e) ∧
    parse_sequence (.punct ';' :: rest) seq iu tu
      = .error ⟨"Character \x27;\x27 is forbidden"⟩ :=
  ⟨parse_sequence_forbidden toks seq iu tu h, by simp [parse_sequence]⟩

/-- Witness for C7 (amended): a brace group as the whole input, and a
direct `;`. -/
theorem c7_witness :
    contains_forbidden [TokenTree.group .brace []] = true ∧
    ((∃ e, parse_sequence [TokenTree.group .brace []]
        RicciSequence.initial IndexUse.new TensorUse.new = .error e) ∧
     parse_sequence (.punct ';' :: [])
        RicciSequence.initial IndexUse.new TensorUse.new
       = .error ⟨"Character \x27;\x27 is forbidden"⟩) :=
  ⟨by simp [contains_forbidden],
   c7_amended_forbidden_tokens [TokenTree.group .brace []] []
     RicciSequence.initial IndexUse.new TensorUse.new (by simp [contains_forbidden])⟩

theorem takeIdentRun_append (run : List String) (other : List RicciAlternative)
    (hother : ∀ n, other.head? ≠ some (identElem n)) :
    takeIdentRun (run.map identElem ++ other) = (run, other) := by
  induction run with
  | nil =>
    cases other with
    | nil => simp [takeIdentRun]
    | cons a rest =>
      cases a with
      | tree t =>
        cases t with
        | ident n => exact (hother n (by simp [identElem])).elim
        | punct c => simp [takeIdentRun]
        | literal v => simp [takeIdentRun]
        | group d s => simp [takeIdentRun]
      | func f => simp [takeIdentRun]
      | seq s => simp [takeIdentRun]
      | tensorAccess tn idxs => simp [takeIdentRun]
  | cons n run' ih =>
    simp [identElem, takeIdentRun]
    rw [show (run'.map identElem ++ other) = run'.map identElem ++ other from rfl]
    have := ih
    simp [identElem] at this
    simp [this]

theorem extract_previous_identifiers_eq (p : Bool) (pre : List RicciAlternative)
    (run : List String) (hmax : ∀ n, pre.getLast? ≠ some (identElem n)) :
    RicciSequence.extract_previous_identifiers ⟨p, pre ++ run.map identElem⟩
      = (run.reverse, ⟨p, pre⟩) := by
  unfold RicciSequence.extract_previous_identifiers
  have hrev : (pre ++ run.map identElem).reverse
      = run.reverse.map identElem ++ pre.reverse := by
    simp [List.reverse_append]
  have hhead : ∀ n, pre.reverse.head? ≠ some (identElem n) := by
    intro n
    rw [List.head?_reverse]
    exact hmax n
  simp only [RicciSequence.content, hrev, takeIdentRun_append run.reverse pre.reverse hhead]
  simp [RicciSequence.use_parens]

/-- C8: at a binder marker `$`, exactly the maximal run of trailing
bare-identifier elements of the current scope is removed and becomes the
binder's index list (stored inverted; its declaration-order view is the
left-to-right run, which is also the order in which the names are
declared), the entire remainder of the enclosing group's stream is parsed
as the binder's body, and the outer scope receives only the binder
element — no token after the `$`. -/
theorem c8_binder_extraction (p : Bool) (pre : List RicciAlternative) (run : List String)
    (rest : List TokenTree) (iu iu' iu'' : IndexUse) (tu tu' : TensorUse)
    (body : RicciSequence)
    (hmax : ∀ n, pre.getLast? ≠ some (identElem n))
    (hdecl : declare_all iu run = .ok iu')
    (hbody : parse_sequence rest RicciSequence.naked iu' tu = .ok (body, iu'', tu')) :
    parse_sequence (.punct '$' :: rest) ⟨p, pre ++ run.map identElem⟩ iu tu
      = .ok (⟨p, pre ++ [.func (.mk run.reverse body)]⟩, iu'', tu') := by
  have hext := extract_previous_identifiers_eq p pre run hmax
  simp [parse_sequence, hext, List.reverse_reverse, hdecl, hbody,
    RicciSequence.use_parens, RicciSequence.content]

/-- Witness for C8: scope `+ i` followed by `$ a[i]`. -/
theorem c8_witness :
    parse_sequence [.punct '$', .ident "a", .group .bracket [.ident "i"]]
        ⟨false, [.tree (.punct '+'), identElem "i"]⟩ ⟨[], []⟩ ⟨[]⟩
      = .ok (⟨false, [.tree (.punct '+'),
                      .func (.mk ["i"] ⟨false, [.tensorAccess "a" ["i"]]⟩)]⟩,
             ⟨["i"], [("i", [⟨"a", 0, "i"⟩])]⟩, ⟨[("a", 1)]⟩) :=
  c8_binder_extraction false [.tree (.punct '+')] ["i"]
    [.ident "a", .group .bracket [.ident "i"]]
    ⟨[], []⟩ ⟨["i"], []⟩ ⟨["i"], [("i", [⟨"a", 0, "i"⟩])]⟩ ⟨[]⟩ ⟨[("a", 1)]⟩
    ⟨false, [.tensorAccess "a" ["i"]]⟩
    (by simp [identElem])
    (by simp [declare_all, IndexUse.declare_new])
    (by rw [← parse_sequence_fuel_spec _ _ _ _ 2000 (by decide)]; rfl)

theorem seq_content_no_shape (n : Nat) : ∀ (l : List RicciAlternative), sizeOf l ≤ n →
    ∀ x ∈ seq_content l, x.isFromShapeFn = false := by
  induction n with
  | zero =>
    intro l hl
    cases l <;> simp_all
  | succ n ih =>
    intro l hl x hx
    match l with
    | [] => simp [seq_content] at hx
    | alt :: rest =>
      rw [seq_content.eq_def] at hx
      simp only [] at hx
      rcases List.mem_append.mp hx with hx | hx
      · cases alt with
        | func f => simp at hx; subst hx; cases f; simp [sequentialize_tensor_func, OutTok.isFromShapeFn]
        | tree t => simp at hx; subst hx; simp [OutTok.isFromShapeFn]
        | seq sub =>
          simp only at hx
          obtain ⟨p, c⟩ := sub
          rw [sequentialize_sequence] at hx
          by_cases hp : p = true
          · simp [hp] at hx
            subst hx
            simp [OutTok.isFromShapeFn]
          · simp [hp] at hx
            refine ih c ?_ x hx
            simp at hl
            omega
        | tensorAccess tn idxs =>
          simp only at hx
          rcases idxs with _ | ⟨a, _ | ⟨b, r⟩⟩ <;> simp_all [OutTok.isFromShapeFn]
      · refine ih rest ?_ x hx
        have ha : 0 < sizeOf alt := by cases alt <;> simp
        simp at hl
        omega

theorem sequentialize_sequence_no_shape (s : RicciSequence) :
    ∀ x ∈ sequentialize_sequence s, x.isFromShapeFn = false := by
  obtain ⟨p, c⟩ := s
  intro x hx
  rw [sequentialize_sequence] at hx
  by_cases hp : p = true
  · simp [hp] at hx
    subst hx
    simp [OutTok.isFromShapeFn]
  · simp [hp] at hx
    exact seq_content_no_shape (sizeOf c) c le_rfl x hx

/-- C2: the body is lowered in array-construction mode — a single
`from_shape_fn` construction whose shape tuple lists the bound indices'
dimension variables in binder (declaration) order — if and only if the
whole top-level scope is exactly one `IndexBinder` with a non-empty index
list; in every other case the body is lowered in expression mode
(`sequentialize_sequence`). -/
theorem c2_array_construction_mode (s : RicciSequence) :
    ((∃ o dims dirs c, sequentialize_body s = [OutTok.fromShapeFn o dims dirs c]) ↔
      ∃ inv body, s.content = [RicciAlternative.func (.mk inv body)] ∧ inv ≠ []) ∧
    (∀ inv body, s.content = [RicciAlternative.func (.mk inv body)] → inv ≠ [] →
      sequentialize_body s
        = [OutTok.fromShapeFn inv.length (inv.reverse.map (fun i => i ++ "_dimension"))
            inv.reverse (sequentialize_sequence body)]) := by
  obtain ⟨p, c⟩ := s
  have hmode : ∀ inv body, c = [RicciAlternative.func (.mk inv body)] → inv ≠ [] →
      sequentialize_body (.mk p c)
        = [OutTok.fromShapeFn inv.length (inv.reverse.map (fun i => i ++ "_dimension"))
            inv.reverse (sequentialize_sequence body)] := by
    intro inv body hc hne
    subst hc
    simp [sequentialize_body, try_extract_func, RicciFunction.inverted_indexes, hne,
      sequentialize_shape_creation, RicciFunction.sequence, RicciSequence.content,
      List.map_reverse]
  refine ⟨⟨?_, ?_⟩, fun inv body hc => hmode inv body (by simpa [RicciSequence.content] using hc)⟩
  · rintro ⟨o, dims, dirs, cc, hbody⟩
    rcases hex : try_extract_func (.mk p c) with s' | f
    · exfalso
      simp only [sequentialize_body, hex] at hbody
      have hmem : OutTok.fromShapeFn o dims dirs cc ∈ sequentialize_sequence s' := by
        rw [hbody]; simp
      have := sequentialize_sequence_no_shape s' _ hmem
      simp [OutTok.isFromShapeFn] at this
    · obtain ⟨inv, body⟩ := f
      unfold try_extract_func at hex
      simp only [RicciSequence.content] at hex
      rcases c with _ | ⟨alt, rest⟩
      · simp at hex
      rcases rest with _ | ⟨alt2, rest2⟩
      · cases alt with
        | func f' =>
          obtain ⟨inv', body'⟩ := f'
          by_cases hni : inv' = []
          · rw [hni] at hex
            simp [RicciFunction.inverted_indexes] at hex
          · simp [RicciFunction.inverted_indexes, hni] at hex
            refine ⟨inv', body', by simp [RicciSequence.content], hni⟩
        | tree t => simp at hex
        | seq s2 => simp at hex
        | tensorAccess tn idxs => simp at hex
      · simp at hex
  · rintro ⟨inv, body, hc, hne⟩
    exact ⟨inv.length, inv.reverse.map (fun i => i ++ "_dimension"), inv.reverse,
      sequentialize_sequence body, hmode inv body (by simpa [RicciSequence.content] using hc) hne⟩

/-- Witness for C2: a scope that is exactly one binder over `i j` (stored
inverted as `["j", "i"]`) is lowered as a shape construction with
dimensions `(i_dimension, j_dimension)`. -/
theorem c2_witness :
    sequentialize_body ⟨false, [.func (.mk ["j", "i"] ⟨false, []⟩)]⟩
      = [OutTok.fromShapeFn 2 ["i_dimension", "j_dimension"] ["i", "j"]
          (sequentialize_sequence ⟨false, []⟩)] :=
  (c2_array_construction_mode ⟨false, [.func (.mk ["j", "i"] ⟨false, []⟩)]⟩).2
    ["j", "i"] ⟨false, []⟩ (by simp [RicciSequence.content]) (by simp)

theorem bindTuple_nil (σ : String → Nat) (vs : List Nat) : bindTuple σ [] vs = σ := by
  cases vs <;> rfl

theorem bindTuple_not_mem (ns : List String) (vs : List Nat) (σ : String → Nat)
    (x : String) (hx : x ∉ ns) : bindTuple σ ns vs x = σ x := by
  induction ns generalizing vs σ with
  | nil => rw [bindTuple_nil]
  | cons n ns' ih =>
    cases vs with
    | nil => rfl
    | cons v vs' =>
      rw [bindTuple]
      rw [ih vs' _ (fun h => hx (List.mem_cons_of_mem _ h))]
      have hxn : x ≠ n := fun h => hx (h ▸ List.mem_cons_self n ns')
      simp [updVal, hxn]

theorem map_bindTuple (ns : List String) (vs : List Nat) (σ : String → Nat)
    (hnd : ns.Nodup) (hlen : ns.length = vs.length) :
    ns.map (bindTuple σ ns vs) = vs := by
  induction ns generalizing vs σ with
  | nil =>
    cases vs with
    | nil => simp
    | cons v vs' => simp at hlen
  | cons n ns' ih =>
    cases vs with
    | nil => simp at hlen
    | cons v vs' =>
      rw [List.nodup_cons] at hnd
      rw [List.map_cons, bindTuple]
      rw [bindTuple_not_mem ns' vs' _ n hnd.1]
      rw [ih vs' _ hnd.2 (by simpa using hlen)]
      simp [updVal]

theorem bindTuple_append_single (ns : List String) (vs : List Nat) (σ : String → Nat)
    (x : String) (v : Nat) (hlen : ns.length = vs.length) :
    bindTuple σ (ns ++ [x]) (vs ++ [v]) = updVal (bindTuple σ ns vs) x v := by
  induction ns generalizing vs σ with
  | nil =>
    cases vs with
    | nil => rfl
    | cons w vs' => simp at hlen
  | cons n ns' ih =>
    cases vs with
    | nil => simp at hlen
    | cons w vs' =>
      simp only [List.cons_append, bindTuple]
      exact ih vs' _ (by simpa using hlen)

theorem mem_lexTuples_length (ds : List Nat) (vals : List Nat) (h : vals ∈ lexTuples ds) :
    vals.length = ds.length := by
  induction ds generalizing vals with
  | nil => simp [lexTuples] at h; simp [h]
  | cons d ds' ih =>
    simp [lexTuples] at h
    obtain ⟨v, hv, t, ht, rfl⟩ := h
    simp [ih t ht]

theorem lexTuples_append_single (ds : List Nat) (d : Nat) :
    lexTuples (ds ++ [d])
      = (lexTuples ds).flatMap (fun vals => (List.range d).map (fun v => vals ++ [v])) := by
  induction ds with
  | nil =>
    simp only [List.nil_append, lexTuples]
    rw [List.flatMap_cons]
    simp [lexTuples]
    exact (List.map_eq_flatMap (fun v => [v]) (List.range d)).symm
  | cons d' ds' ih =>
    simp only [List.cons_append, lexTuples, ih]
    rw [List.flatMap_assoc]
    refine List.flatMap_congr ?_
    intro v _
    rw [show ds'.append [d] = ds' ++ [d] from rfl, ih]
    rw [List.flatMap_map, List.map_flatMap]
    refine List.flatMap_congr ?_
    intro vals _
    simp [Function.comp, List.map_map]

theorem build_mappings_eval_flat (outs : List String) (i : Nat) (hi : i ≠ 0)
    (m : Mappings) (env σ : String → Nat) :
    (build_mappings i outs m).eval env σ
      = (lexTuples (outs.reverse.map (fun x => env (x ++ "_dimension")))).flatMap
          (fun vals => m.eval env (bindTuple σ outs.reverse vals)) := by
  induction outs generalizing i m σ with
  | nil => simp [build_mappings, lexTuples, bindTuple_nil]
  | cons o rest ih =>
    rw [build_mappings, if_neg hi]
    rw [ih (i + 1) (by omega)]
    have hlen : ∀ vals ∈ lexTuples (rest.reverse.map (fun x => env (x ++ "_dimension"))),
        vals.length = rest.reverse.length := by
      intro vals hv
      simpa using mem_lexTuples_length _ vals hv
    rw [show (o :: rest).reverse.map (fun x => env (x ++ "_dimension"))
        = rest.reverse.map (fun x => env (x ++ "_dimension")) ++ [env (o ++ "_dimension")] by
      simp]
    rw [lexTuples_append_single, List.flatMap_assoc]
    refine List.flatMap_congr ?_
    intro vals hv
    rw [Mappings.eval, List.flatMap_map]
    refine List.flatMap_congr ?_
    intro v _
    rw [show (o :: rest).reverse = rest.reverse ++ [o] by simp]
    rw [bindTuple_append_single rest.reverse vals σ o v (hlen vals hv).symm]

theorem build_mappings_eval (x : String) (outs : List String) (env σ : String → Nat)
    (hnd : (x :: outs).Nodup) :
    (build_mappings 0 (x :: outs) (.tuple (x :: outs).reverse)).eval env σ
      = lexTuples ((x :: outs).reverse.map (fun i => env (i ++ "_dimension"))) := by
  rw [build_mappings, if_pos rfl]
  rw [build_mappings_eval_flat outs 1 one_ne_zero]
  rw [show (x :: outs).reverse.map (fun i => env (i ++ "_dimension"))
      = outs.reverse.map (fun i => env (i ++ "_dimension")) ++ [env (x ++ "_dimension")] by
    simp]
  rw [lexTuples_append_single]
  refine List.flatMap_congr ?_
  intro vals hv
  rw [Mappings.eval]
  refine List.map_congr_left ?_
  intro v _
  rw [Mappings.evalExpr]
  rw [show (x :: outs).reverse = outs.reverse ++ [x] by simp]
  rw [List.map_append]
  have hx : x ∉ outs.reverse := by
    simpa using (List.nodup_cons.mp hnd).1
  have hmapped : outs.reverse.map (updVal (bindTuple σ outs.reverse vals) x v)
      = outs.reverse.map (bindTuple σ outs.reverse vals) := by
    refine List.map_congr_left ?_
    intro y hy
    have hyx : y ≠ x := fun h => hx (h ▸ hy)
    simp [updVal, hyx]
  rw [hmapped]
  have hlen : outs.reverse.length = vals.length := by
    have := mem_lexTuples_length _ vals hv
    simpa using this.symm
  rw [map_bindTuple outs.reverse vals σ (List.nodup_reverse.mpr (List.nodup_cons.mp hnd).2) hlen]
  simp [updVal]

theorem build_mappings_topLevel (l : List String) (x : String) (hx : l.getLast? = some x) :
    ∀ (i : Nat) (m : Mappings),
      (build_mappings i l m).topLevel = some (x ++ "_dimension", x) := by
  induction l with
  | nil => simp at hx
  | cons a rest ih =>
    intro i m
    cases rest with
    | nil =>
      simp at hx
      subst hx
      by_cases hi : i = 0 <;> simp [build_mappings, hi, Mappings.topLevel]
    | cons b r =>
      rw [build_mappings]
      exact ih (by simpa [List.getLast?_cons_cons] using hx) (i + 1) _

/-- C3: an `IndexBinder` lowered in expression mode becomes an iterator
chain with one iteration level per bound index, the first-declared index
(the last of the inverted list) outermost, ranging over its dimension
variable; intermediate levels flatten (`.flat_map`), and running the
chain yields exactly the lowered body value at every multi-index, in
lexicographic order with the first-declared index slowest-varying. -/
theorem c3_expression_mode_iteration {α : Type} (inv : List String)
    (sequence : RicciSequence) (x : String) (hlast : inv.getLast? = some x)
    (hnd : inv.Nodup) (env σ : String → Nat) (body : (String → Nat) → α) :
    ∃ m : Mappings,
      sequentialize_tensor_func (.mk inv sequence)
        = .funcStream m inv.reverse (sequentialize_sequence sequence) ∧
      m.topLevel = some (x ++ "_dimension", x) ∧
      evalFuncStream env σ m inv.reverse body
        = (lexTuples (inv.reverse.map (fun i => env (i ++ "_dimension")))).map
            (fun vals => body (bindTuple σ inv.reverse vals)) := by
  obtain ⟨a, outs, rfl⟩ : ∃ a outs, inv = a :: outs := by
    cases inv with
    | nil => simp at hlast
    | cons a outs => exact ⟨a, outs, rfl⟩
  refine ⟨build_mappings 0 (a :: outs) (.tuple (a :: outs).reverse), ?_, ?_, ?_⟩
  · rw [sequentialize_tensor_func]
  · exact build_mappings_topLevel (a :: outs) x hlast 0 _
  · rw [evalFuncStream, build_mappings_eval a outs env σ hnd]

/-- Witness for C3: binder `i j` (inverted list `["j", "i"]`), dimensions
`i ↦ 2`, `j ↦ 3`, body reading both indices. -/
theorem c3_witness :
    (["j", "i"] : List String).getLast? = some "i" ∧
    (["j", "i"] : List String).Nodup ∧
    ∃ m : Mappings,
      sequentialize_tensor_func (.mk ["j", "i"] ⟨false, []⟩)
        = .funcStream m ["i", "j"] (sequentialize_sequence ⟨false, []⟩) ∧
      m.topLevel = some ("i_dimension", "i") ∧
      evalFuncStream
          (fun s => if s = "i_dimension" then 2 else if s = "j_dimension" then 3 else 0)
          (fun _ => 0) m ["i", "j"] (fun σ' => 10 * σ' "i" + σ' "j")
        = (lexTuples [2, 3]).map
            (fun vals =>
              (fun σ' => 10 * σ' "i" + σ' "j")
                (bindTuple (fun _ => 0) ["i", "j"] vals)) :=
  ⟨by decide, by decide,
   by
    have h := c3_expression_mode_iteration (α := Nat) ["j", "i"] ⟨false, []⟩ "i"
      (by decide) (by decide)
      (fun s => if s = "i_dimension" then 2 else if s = "j_dimension" then 3 else 0)
      (fun _ => 0) (fun σ' => 10 * σ' "i" + σ' "j")
    simpa using h⟩

theorem string_append_dimension_inj (a b : String)
    (h : a ++ "_dimension" = b ++ "_dimension") : a = b := by
  have hd : a.data ++ "_dimension".data = b.data ++ "_dimension".data := by
    have := congrArg String.data h
    simpa using this
  have := List.append_cancel_right hd
  exact String.ext this

theorem alRemove_none {α : Type} (corr : List (String × α)) (n : String) :
    alRemove corr n = none ↔ alLookup corr n = none := by
  induction corr with
  | nil => simp [alRemove, alLookup]
  | cons kv rest ih =>
    obtain ⟨k, v⟩ := kv
    by_cases hk : k = n <;> simp [alRemove, alLookup, hk, ih]

theorem alRemove_some {α : Type} (corr : List (String × α)) (n : String)
    (ps : α) (corr' : List (String × α)) (h : alRemove corr n = some (ps, corr')) :
    alLookup corr n = some ps ∧ ∀ m, m ≠ n → alLookup corr' m = alLookup corr m := by
  induction corr generalizing corr' with
  | nil => simp [alRemove] at h
  | cons kv rest ih =>
    obtain ⟨k, v⟩ := kv
    by_cases hk : k = n
    · subst hk
      simp [alRemove] at h
      obtain ⟨rfl, rfl⟩ := h
      refine ⟨by simp [alLookup], fun m hm => ?_⟩
      rw [alLookup, if_neg (fun hh => hm hh.symm)]
    · rw [alRemove, if_neg hk] at h
      rcases hr : alRemove rest n with _ | ⟨ps', rest'⟩
      · rw [hr] at h; simp at h
      · rw [hr] at h
        simp at h
        obtain ⟨rfl, rfl⟩ := h
        obtain ⟨hl, hrest⟩ := ih rest' hr
        refine ⟨by simpa [alLookup, hk] using hl, fun m hm => ?_⟩
        by_cases hkm : k = m <;> simp [alLookup, hkm, hrest m hm]

theorem intoIterGo_spec (order : List String)
    (corr : List (String × List RicciPosition)) (hnd : order.Nodup)
    (hcov : ∀ n ∈ order, alLookup corr n ≠ none) :
    intoIterGo order corr = some (order.map (fun n => (n, (alLookup corr n).getD []))) := by
  induction order generalizing corr with
  | nil => simp [intoIterGo]
  | cons n rest ih =>
    rcases hl : alLookup corr n with _ | ps
    · exact absurd hl (hcov n (List.mem_cons_self n rest))
    rcases hr : alRemove corr n with _ | ⟨ps', corr'⟩
    · exact absurd ((alRemove_none corr n).mp hr) (hcov n (List.mem_cons_self n rest))
    obtain ⟨hl', hpres⟩ := alRemove_some corr n ps' corr' hr
    rw [hl] at hl'
    obtain rfl : ps = ps' := by simpa using hl'
    rw [List.nodup_cons] at hnd
    have hcov' : ∀ m ∈ rest, alLookup corr' m ≠ none := by
      intro m hm
      rw [hpres m (fun h => hnd.1 (h ▸ hm))]
      exact hcov m (List.mem_cons_of_mem _ hm)
    have hmapeq : rest.map (fun m => (m, (alLookup corr' m).getD []))
        = rest.map (fun m => (m, (alLookup corr m).getD [])) := by
      refine List.map_congr_left ?_
      intro m hm
      rw [hpres m (fun h => hnd.1 (h ▸ hm))]
    simp [intoIterGo, hr, ih corr' hnd.2 hcov', hmapeq, hl]

theorem mapM_option_of_forall {α β : Type} (f : α → Option β) (g : α → β)
    (l : List α) (h : ∀ a ∈ l, f a = some (g a)) : l.mapM f = some (l.map g) := by
  induction l with
  | nil => rfl
  | cons a rest ih =>
    rw [List.mapM_cons, h a (List.mem_cons_self a rest),
      ih (fun b hb => h b (List.mem_cons_of_mem _ hb))]
    rfl

theorem create_dim_eval (tu : TensorUse) (p : RicciPosition)
    (arrays : String → List Nat) (hreg : tu.get_order p.tensor_name ≠ none) :
    ∃ c, create_dimension_computation tu p = some c ∧
      c.eval arrays = specAxisSize tu arrays p := by
  rcases hk : tu.get_order p.tensor_name with _ | k
  · exact absurd hk hreg
  by_cases h1 : k = 1
  · subst h1
    exact ⟨.dim p.tensor_name, by simp [create_dimension_computation, hk],
      by simp [DimComputation.eval, specAxisSize, hk]⟩
  · refine ⟨.dimAt p.tensor_name p.position, by simp [create_dimension_computation, hk, h1],
      ?_⟩
    simp [DimComputation.eval, specAxisSize, hk, h1]

theorem run_header_append (arrays : String → List Nat) (l₁ l₂ : List HeaderStmt)
    (σ : String → Nat) :
    run_header arrays (l₁ ++ l₂) σ
      = match run_header arrays l₁ σ with
        | .ok σ' => run_header arrays l₂ σ'
        | .error e => .error e := by
  induction l₁ generalizing σ with
  | nil => simp [run_header]
  | cons st rest ih =>
    cases st with
    | letDim n c => simp [run_header, ih]
    | assertEq c₁ c₂ msg =>
      by_cases hc : c₁.eval arrays = c₂.eval arrays <;> simp [run_header, hc, ih]

theorem letDimNames_append (l₁ l₂ : List HeaderStmt) :
    letDimNames (l₁ ++ l₂) = letDimNames l₁ ++ letDimNames l₂ := by
  induction l₁ with
  | nil => simp [letDimNames]
  | cons st rest ih =>
    cases st <;> simp [letDimNames, ih]

theorem letDimNames_checks (rest : List RicciPosition)
    (f : RicciPosition → HeaderStmt)
    (hf : ∀ p, ∃ c₁ c₂ m, f p = .assertEq c₁ c₂ m) :
    letDimNames (rest.map f) = [] := by
  induction rest with
  | nil => simp [letDimNames]
  | cons p ps ih =>
    obtain ⟨c₁, c₂, m, hfp⟩ := hf p
    simp [hfp, letDimNames, ih]

theorem run_header_checks (arrays : String → List Nat) (c₁ : DimComputation)
    (rest : List DimComputation) (σ : String → Nat) :
    run_header arrays (rest.map (fun c => HeaderStmt.assertEq c₁ c "Non matching dimensions")) σ
      = if ∀ c ∈ rest, c.eval arrays = c₁.eval arrays then .ok σ
        else .error "Non matching dimensions" := by
  induction rest with
  | nil => simp [run_header]
  | cons c cs ih =>
    rw [List.map_cons]
    simp only [run_header]
    by_cases hc : DimComputation.eval arrays c₁ = DimComputation.eval arrays c
    · rw [if_pos hc, ih]
      by_cases hall : ∀ c' ∈ cs, DimComputation.eval arrays c' = DimComputation.eval arrays c₁
      · rw [if_pos hall, if_pos]
        intro c' hc'
        rcases List.mem_cons.mp hc' with rfl | hmem
        · exact hc.symm
        · exact hall c' hmem
      · rw [if_neg hall, if_neg]
        intro hcon
        exact hall (fun c' hmem => hcon c' (List.mem_cons_of_mem _ hmem))
    · rw [if_neg hc, if_neg]
      intro hcon
      exact hc (hcon c (List.mem_cons_self c cs)).symm

theorem header_entry_spec (tu : TensorUse) (arrays : String → List Nat)
    (n : String) (first : RicciPosition) (rest : List RicciPosition)
    (hreg : ∀ p ∈ first :: rest, tu.get_order p.tensor_name ≠ none) :
    ∃ block, header_for_entry tu (n, first :: rest) = some block ∧
      letDimNames block = [n ++ "_dimension"] ∧
      ∀ σ, run_header arrays block σ
        = if ∀ p ∈ first :: rest,
              specAxisSize tu arrays p = specAxisSize tu arrays first
          then .ok (updVal σ (n ++ "_dimension") (specAxisSize tu arrays first))
          else .error "Non matching dimensions" := by
  obtain ⟨c₁, hc₁, he₁⟩ :=
    create_dim_eval tu first arrays (hreg first (List.mem_cons_self _ _))
  have hgc : ∀ p ∈ rest,
      create_dimension_computation tu p
        = some ((create_dimension_computation tu p).getD (.dim "")) := by
    intro p hp
    rcases hcp : create_dimension_computation tu p with _ | cp
    · obtain ⟨cp, hcp', _⟩ :=
        create_dim_eval tu p arrays (hreg p (List.mem_cons_of_mem _ hp))
      rw [hcp] at hcp'
      simp at hcp'
    · simp
  have hegc : ∀ p ∈ rest,
      ((create_dimension_computation tu p).getD (.dim "")).eval arrays
        = specAxisSize tu arrays p := by
    intro p hp
    obtain ⟨cp, hcp, hep⟩ :=
      create_dim_eval tu p arrays (hreg p (List.mem_cons_of_mem _ hp))
    rw [hcp]
    simpa using hep
  have hmapm : rest.mapM (fun p =>
      (create_dimension_computation tu p).map
        (fun c => HeaderStmt.assertEq c₁ c "Non matching dimensions"))
      = some (rest.map (fun p =>
          HeaderStmt.assertEq c₁ ((create_dimension_computation tu p).getD (.dim ""))
            "Non matching dimensions")) := by
    refine mapM_option_of_forall _ _ rest ?_
    intro p hp
    rw [hgc p hp]
    rfl
  refine ⟨HeaderStmt.letDim (n ++ "_dimension") c₁ :: rest.map (fun p =>
      HeaderStmt.assertEq c₁ ((create_dimension_computation tu p).getD (.dim ""))
        "Non matching dimensions"), ?_, ?_, ?_⟩
  · simp only [header_for_entry, hc₁, hmapm]
    rfl
  · rw [letDimNames]
    rw [letDimNames_checks _ _ (fun p => ⟨_, _, _, rfl⟩)]
  · intro σ
    rw [run_header]
    have hchecks : rest.map (fun p =>
        HeaderStmt.assertEq c₁ ((create_dimension_computation tu p).getD (.dim ""))
          "Non matching dimensions")
        = (rest.map (fun p => (create_dimension_computation tu p).getD (.dim ""))).map
            (fun c => HeaderStmt.assertEq c₁ c "Non matching dimensions") := by
      rw [List.map_map]
      rfl
    rw [hchecks, run_header_checks]
    have hcond : (∀ c ∈ rest.map (fun p => (create_dimension_computation tu p).getD (.dim "")),
        c.eval arrays = c₁.eval arrays) ↔
        (∀ p ∈ first :: rest, specAxisSize tu arrays p = specAxisSize tu arrays first) := by
      constructor
      · intro h p hp
        rcases List.mem_cons.mp hp with rfl | hp'
        · rfl
        · rw [← hegc p hp', ← he₁]
          exact h _ (List.mem_map_of_mem _ hp')
      · intro h c hc
        obtain ⟨p, hp, rfl⟩ := List.mem_map.mp hc
        rw [hegc p hp, he₁]
        exact h p (List.mem_cons_of_mem _ hp)
    by_cases hall : ∀ p ∈ first :: rest, specAxisSize tu arrays p = specAxisSize tu arrays first
    · rw [if_pos (hcond.mpr hall), if_pos hall, he₁]
      rfl
    · rw [if_neg (fun hh => hall (hcond.mp hh)), if_neg hall]

theorem header_entries_spec (tu : TensorUse) (arrays : String → List Nat) :
    ∀ (E : List (String × List RicciPosition)) (σ : String → Nat),
      (E.map Prod.fst).Nodup →
      (∀ e ∈ E, e.2 ≠ []) →
      (∀ e ∈ E, ∀ p ∈ e.2, tu.get_order p.tensor_name ≠ none) →
      ∃ L, E.mapM (header_for_entry tu) = some L ∧
        letDimNames L.flatten = E.map (fun e => e.1 ++ "_dimension") ∧
        (∀ err, run_header arrays L.flatten σ = .error err →
          err = "Non matching dimensions") ∧
        ((∃ σ', run_header arrays L.flatten σ = .ok σ') ↔
          ∀ e ∈ E, ∀ p ∈ e.2,
            specAxisSize tu arrays p = specAxisSize tu arrays e.2.headI) ∧
        (∀ σ', run_header arrays L.flatten σ = .ok σ' →
          (∀ e ∈ E, σ' (e.1 ++ "_dimension") = specAxisSize tu arrays e.2.headI) ∧
          (∀ y, (∀ e ∈ E, y ≠ e.1 ++ "_dimension") → σ' y = σ y)) := by
  intro E
  induction E with
  | nil =>
    intro σ _ _ _
    refine ⟨[], rfl, by simp [letDimNames], ?_, ?_, ?_⟩
    · intro err herr
      simp [run_header] at herr
    · simp [run_header]
    · intro σ' hok
      simp [run_header] at hok
      subst hok
      exact ⟨by simp, fun y _ => rfl⟩
  | cons e E' ih =>
    intro σ hnd hne hreg
    obtain ⟨nn, ps⟩ := e
    obtain ⟨first, rest, rfl⟩ : ∃ f r, ps = f :: r := by
      cases ps with
      | nil => exact absurd rfl (hne (nn, []) (List.mem_cons_self _ _))
      | cons f r => exact ⟨f, r, rfl⟩
    obtain ⟨block, hblock, hnames, hrun⟩ :=
      header_entry_spec tu arrays nn first rest
        (hreg (nn, first :: rest) (List.mem_cons_self _ _))
    rw [List.map_cons, List.nodup_cons] at hnd
    by_cases hall : ∀ p ∈ first :: rest,
        specAxisSize tu arrays p = specAxisSize tu arrays first
    · set v := specAxisSize tu arrays first with hv
      set dn := nn ++ "_dimension" with hdn
      obtain ⟨L', hL', hnames', herr', hiff', hfinal'⟩ :=
        ih (updVal σ dn v) hnd.2
          (fun e' he' => hne e' (List.mem_cons_of_mem _ he'))
          (fun e' he' => hreg e' (List.mem_cons_of_mem _ he'))
      refine ⟨block :: L', ?_, ?_, ?_, ?_, ?_⟩
      · rw [List.mapM_cons, hblock, hL']
        rfl
      · rw [List.flatten_cons, letDimNames_append, hnames, hnames']
        simp
      · intro err herr
        rw [List.flatten_cons, run_header_append, hrun σ, if_pos hall] at herr
        exact herr' err herr
      · rw [List.flatten_cons, run_header_append, hrun σ, if_pos hall]
        constructor
        · intro hok e' he'
          rcases List.mem_cons.mp he' with rfl | he''
          · simpa using hall
          · exact hiff'.mp hok e' he''
        · intro h
          exact hiff'.mpr (fun e' he' => h e' (List.mem_cons_of_mem _ he'))
      · intro σ' hok
        rw [List.flatten_cons, run_header_append, hrun σ, if_pos hall] at hok
        obtain ⟨hvals, hframe⟩ := hfinal' σ' hok
        constructor
        · intro e' he'
          rcases List.mem_cons.mp he' with rfl | he''
          · have : σ' dn = updVal σ dn v dn := by
              refine hframe dn ?_
              intro e'' he'' hcontra
              exact hnd.1 (by
                rw [List.mem_map]
                exact ⟨e'', he'', (string_append_dimension_inj nn e''.1 hcontra).symm⟩)
            simpa [updVal] using this
          · exact hvals e' he''
        · intro y hy
          have h1 : σ' y = updVal σ dn v y :=
            hframe y (fun e'' he'' => hy e'' (List.mem_cons_of_mem _ he''))
          have h2 : y ≠ dn := hy (nn, first :: rest) (List.mem_cons_self _ _)
          rw [h1]
          simp [updVal, h2]
    · obtain ⟨L', hL', hnames', _, _, _⟩ :=
        ih σ hnd.2 (fun e' he' => hne e' (List.mem_cons_of_mem _ he'))
          (fun e' he' => hreg e' (List.mem_cons_of_mem _ he'))
      refine ⟨block :: L', ?_, ?_, ?_, ?_, ?_⟩
      · rw [List.mapM_cons, hblock, hL']
        rfl
      · rw [List.flatten_cons, letDimNames_append, hnames, hnames']
        simp
      · intro err herr
        rw [List.flatten_cons, run_header_append, hrun σ, if_neg hall] at herr
        simp at herr
        exact herr.symm
      · rw [List.flatten_cons, run_header_append, hrun σ, if_neg hall]
        constructor
        · rintro ⟨σ', hσ'⟩
          simp at hσ'
        · intro h
          exact absurd
            (fun p hp => h (nn, first :: rest) (List.mem_cons_self _ _) p hp) hall
      · intro σ' hok
        rw [List.flatten_cons, run_header_append, hrun σ, if_neg hall] at hok
        simp at hok

/-- C1: for every index-registry state a successful parse can produce
(its declared names are distinct, each has a non-empty usage list and
every used tensor is registered), the emitted header binds, for each
index name in first-declared order, the variable `<index>_dimension` to
the axis size of the index's first usage site — where the axis size of a
site is the array's single size when its registered rank is 1 and the
component at the site's axis position of the shape tuple otherwise — and
checks every other usage site against the first one: running the header
succeeds exactly when all sites of each index agree, any failure carries
the message "Non matching dimensions", and on success each dimension
variable holds its first site's axis size. -/
theorem c1_header_correctness (iu : IndexUse) (tu : TensorUse)
    (arrays : String → List Nat)
    (hnd : iu.indexes_in_order.Nodup)
    (hcov : ∀ n ∈ iu.indexes_in_order, alLookup iu.correspondence n ≠ none)
    (hne : ∀ n ∈ iu.indexes_in_order, (alLookup iu.correspondence n).getD [] ≠ [])
    (hreg : ∀ n ∈ iu.indexes_in_order, ∀ p ∈ (alLookup iu.correspondence n).getD [],
      tu.get_order p.tensor_name ≠ none) :
    ∃ stmts, sequentialize_header iu tu = some stmts ∧
      letDimNames stmts = iu.indexes_in_order.map (fun n => n ++ "_dimension") ∧
      (∀ err, run_header arrays stmts initialEnv = .error err →
        err = "Non matching dimensions") ∧
      ((∃ σ, run_header arrays stmts initialEnv = .ok σ) ↔
        ∀ n ∈ iu.indexes_in_order, ∀ p ∈ (alLookup iu.correspondence n).getD [],
          specAxisSize tu arrays p
            = specAxisSize tu arrays ((alLookup iu.correspondence n).getD []).headI) ∧
      (∀ σ, run_header arrays stmts initialEnv = .ok σ →
        ∀ n ∈ iu.indexes_in_order,
          σ (n ++ "_dimension")
            = specAxisSize tu arrays ((alLookup iu.correspondence n).getD []).headI) := by
  have hintoIter := intoIterGo_spec iu.indexes_in_order iu.correspondence hnd hcov
  set E := iu.indexes_in_order.map (fun n => (n, (alLookup iu.correspondence n).getD []))
    with hE
  have hndE : (E.map Prod.fst).Nodup := by
    rw [hE, List.map_map]
    have : (Prod.fst ∘ fun n => (n, (alLookup iu.correspondence n).getD []))
        = fun n : String => n := rfl
    rw [this]
    simpa using hnd
  have hneE : ∀ e ∈ E, e.2 ≠ [] := by
    intro e he
    obtain ⟨n, hn, rfl⟩ := List.mem_map.mp he
    exact hne n hn
  have hregE : ∀ e ∈ E, ∀ p ∈ e.2, tu.get_order p.tensor_name ≠ none := by
    intro e he
    obtain ⟨n, hn, rfl⟩ := List.mem_map.mp he
    exact hreg n hn
  obtain ⟨L, hL, hnamesE, herrE, hiffE, hfinalE⟩ :=
    header_entries_spec tu arrays E initialEnv hndE hneE hregE
  refine ⟨L.flatten, ?_, ?_, herrE, ?_, ?_⟩
  · rw [sequentialize_header, IndexUse.intoIter, hintoIter]
    simp only []
    rw [hL]
    rfl
  · rw [hnamesE, hE, List.map_map]
    rfl
  · rw [hiffE]
    constructor
    · intro h n hn
      exact h (n, (alLookup iu.correspondence n).getD [])
        (by rw [hE, List.mem_map]; exact ⟨n, hn, rfl⟩)
    · intro h e he
      obtain ⟨n, hn, rfl⟩ := List.mem_map.mp he
      exact h n hn
  · intro σ hok n hn
    exact (hfinalE σ hok).1 (n, (alLookup iu.correspondence n).getD [])
      (by rw [hE, List.mem_map]; exact ⟨n, hn, rfl⟩)

/-- Witness for C1: registries of `i j $ a[i,j] + b[j]` (`a` rank 2,
`b` rank 1) with shapes `a : 9×10`, `b : 10`. -/
theorem c1_witness :
    ∃ stmts,
      sequentialize_header
          ⟨["i", "j"], [("i", [⟨"a", 0, "i"⟩]), ("j", [⟨"a", 1, "j"⟩, ⟨"b", 0, "j"⟩])]⟩
          ⟨[("a", 2), ("b", 1)]⟩ = some stmts ∧
      letDimNames stmts = ["i", "j"].map (fun n => n ++ "_dimension") ∧
      (∀ err,
        run_header (fun s => if s = "a" then [9, 10] else if s = "b" then [10] else [])
          stmts initialEnv = .error err → err = "Non matching dimensions") ∧
      ((∃ σ, run_header (fun s => if s = "a" then [9, 10] else if s = "b" then [10] else [])
          stmts initialEnv = .ok σ) ↔
        ∀ n ∈ ["i", "j"],
          ∀ p ∈ (alLookup
              [("i", [(⟨"a", 0, "i"⟩ : RicciPosition)]),
               ("j", [⟨"a", 1, "j"⟩, ⟨"b", 0, "j"⟩])] n).getD [],
            specAxisSize ⟨[("a", 2), ("b", 1)]⟩
                (fun s => if s = "a" then [9, 10] else if s = "b" then [10] else []) p
              = specAxisSize ⟨[("a", 2), ("b", 1)]⟩
                  (fun s => if s = "a" then [9, 10] else if s = "b" then [10] else [])
                  ((alLookup
                      [("i", [(⟨"a", 0, "i"⟩ : RicciPosition)]),
                       ("j", [⟨"a", 1, "j"⟩, ⟨"b", 0, "j"⟩])] n).getD []).headI) ∧
      (∀ σ, run_header (fun s => if s = "a" then [9, 10] else if s = "b" then [10] else [])
          stmts initialEnv = .ok σ →
        ∀ n ∈ ["i", "j"],
          σ (n ++ "_dimension")
            = specAxisSize ⟨[("a", 2), ("b", 1)]⟩
                (fun s => if s = "a" then [9, 10] else if s = "b" then [10] else [])
                ((alLookup
                    [("i", [(⟨"a", 0, "i"⟩ : RicciPosition)]),
                     ("j", [⟨"a", 1, "j"⟩, ⟨"b", 0, "j"⟩])] n).getD []).headI) :=
  c1_header_correctness
    ⟨["i", "j"], [("i", [⟨"a", 0, "i"⟩]), ("j", [⟨"a", 1, "j"⟩, ⟨"b", 0, "j"⟩])]⟩
    ⟨[("a", 2), ("b", 1)]⟩
    (fun s => if s = "a" then [9, 10] else if s = "b" then [10] else [])
    (by decide) (by decide) (by decide) (by decide)

theorem alLookup_eq_none_of_not_mem_keys {α : Type} (corr : List (String × α))
    (n : String) (h : n ∉ corr.map Prod.fst) : alLookup corr n = none := by
  induction corr with
  | nil => rfl
  | cons kv rest ih =>
    obtain ⟨k, v⟩ := kv
    have hk : k ≠ n := by
      intro hh
      exact h (by rw [List.map_cons, hh]; exact List.mem_cons_self _ _)
    have hrest : n ∉ rest.map Prod.fst := by
      intro hm
      exact h (by rw [List.map_cons]; exact List.mem_cons_of_mem _ hm)
    rw [alLookup, if_neg hk, ih hrest]

theorem alRemove_sublist {α : Type} (corr : List (String × α)) (n : String)
    (ps : α) (corr' : List (String × α)) (h : alRemove corr n = some (ps, corr')) :
    corr'.Sublist corr := by
  induction corr generalizing corr' with
  | nil => simp [alRemove] at h
  | cons kv rest ih =>
    obtain ⟨k, v⟩ := kv
    by_cases hk : k = n
    · subst hk
      simp [alRemove] at h
      exact h.2 ▸ (List.sublist_cons_self _ _)
    · rw [alRemove, if_neg hk] at h
      rcases hr : alRemove rest n with _ | ⟨ps', rest'⟩
      · rw [hr] at h; simp at h
      · rw [hr] at h
        simp at h
        obtain ⟨rfl, rfl⟩ := h
        exact List.Sublist.cons₂ _ (ih rest' hr)

theorem alRemove_lookup_none {α : Type} (corr : List (String × α)) (n : String)
    (ps : α) (corr' : List (String × α)) (hnd : (corr.map Prod.fst).Nodup)
    (h : alRemove corr n = some (ps, corr')) : alLookup corr' n = none := by
  induction corr generalizing corr' with
  | nil => simp [alRemove] at h
  | cons kv rest ih =>
    obtain ⟨k, v⟩ := kv
    rw [List.map_cons, List.nodup_cons] at hnd
    by_cases hk : k = n
    · subst hk
      simp [alRemove] at h
      rw [← h.2]
      exact alLookup_eq_none_of_not_mem_keys rest k hnd.1
    · rw [alRemove, if_neg hk] at h
      rcases hr : alRemove rest n with _ | ⟨ps', rest'⟩
      · rw [hr] at h; simp at h
      · rw [hr] at h
        simp at h
        obtain ⟨rfl, rfl⟩ := h
        rw [alLookup, if_neg hk]
        exact ih rest' hnd.2 hr

theorem intoIterGo_congr (order : List String) :
    ∀ (corr₁ corr₂ : List (String × List RicciPosition)),
      (corr₁.map Prod.fst).Nodup → (corr₂.map Prod.fst).Nodup →
      (∀ n, alLookup corr₁ n = alLookup corr₂ n) →
      intoIterGo order corr₁ = intoIterGo order corr₂ := by
  induction order with
  | nil => intro corr₁ corr₂ _ _ _; rfl
  | cons n rest ih =>
    intro corr₁ corr₂ hnd₁ hnd₂ hlook
    rcases h₁ : alRemove corr₁ n with _ | ⟨ps₁, corr₁'⟩ <;>
      rcases h₂ : alRemove corr₂ n with _ | ⟨ps₂, corr₂'⟩
    · rw [intoIterGo, h₁, intoIterGo, h₂]
    · rw [alRemove_none] at h₁
      obtain ⟨hl₂, _⟩ := alRemove_some corr₂ n ps₂ corr₂' h₂
      rw [hlook n, hl₂] at h₁
      simp at h₁
    · rw [alRemove_none] at h₂
      obtain ⟨hl₁, _⟩ := alRemove_some corr₁ n ps₁ corr₁' h₁
      rw [← hlook n, hl₁] at h₂
      simp at h₂
    · obtain ⟨hl₁, hpres₁⟩ := alRemove_some corr₁ n ps₁ corr₁' h₁
      obtain ⟨hl₂, hpres₂⟩ := alRemove_some corr₂ n ps₂ corr₂' h₂
      obtain rfl : ps₁ = ps₂ := by
        have := hl₁.symm.trans ((hlook n).trans hl₂)
        simpa using this
      have hnd₁' : (corr₁'.map Prod.fst).Nodup :=
        hnd₁.sublist ((alRemove_sublist corr₁ n ps₁ corr₁' h₁).map Prod.fst)
      have hnd₂' : (corr₂'.map Prod.fst).Nodup :=
        hnd₂.sublist ((alRemove_sublist corr₂ n ps₁ corr₂' h₂).map Prod.fst)
      have hlook' : ∀ m, alLookup corr₁' m = alLookup corr₂' m := by
        intro m
        by_cases hm : m = n
        · subst hm
          rw [alRemove_lookup_none corr₁ m ps₁ corr₁' hnd₁ h₁,
            alRemove_lookup_none corr₂ m ps₁ corr₂' hnd₂ h₂]
        · rw [hpres₁ m hm, hpres₂ m hm, hlook m]
      simp only [intoIterGo, h₁, h₂, ih corr₁' corr₂' hnd₁' hnd₂' hlook']

/-- C9: compilation is deterministic.  The whole embedded pipeline is a
pure function (literally equal to itself on every run), and the only
run-to-run variation in the original program — the internal arrangement
of the registry hash map — cannot influence the emitted header: two
registries with the same first-declared order and the same lookup
results, whatever the arrangement of their underlying maps, produce the
very same header (and hence the same first-declared binding order). -/
theorem c9_deterministic_compilation (input : List TokenTree)
    (iu₁ iu₂ : IndexUse) (tu : TensorUse)
    (horder : iu₁.indexes_in_order = iu₂.indexes_in_order)
    (hk₁ : (iu₁.correspondence.map Prod.fst).Nodup)
    (hk₂ : (iu₂.correspondence.map Prod.fst).Nodup)
    (hlook : ∀ n, alLookup iu₁.correspondence n = alLookup iu₂.correspondence n) :
    compile input = compile input ∧
    sequentialize_header iu₁ tu = sequentialize_header iu₂ tu := by
  refine ⟨rfl, ?_⟩
  rw [sequentialize_header, sequentialize_header, IndexUse.intoIter, IndexUse.intoIter,
    horder, intoIterGo_congr iu₂.indexes_in_order iu₁.correspondence iu₂.correspondence
      hk₁ hk₂ hlook]

/-- Witness for C9: the same registry with its map entries stored in the
two possible orders. -/
theorem c9_witness :
    compile [] = compile [] ∧
    sequentialize_header
        ⟨["i", "j"], [("i", [⟨"a", 0, "i"⟩]), ("j", [⟨"b", 0, "j"⟩])]⟩ ⟨[("a", 1)]⟩
      = sequentialize_header
          ⟨["i", "j"], [("j", [⟨"b", 0, "j"⟩]), ("i", [⟨"a", 0, "i"⟩])]⟩ ⟨[("a", 1)]⟩ :=
  c9_deterministic_compilation []
    ⟨["i", "j"], [("i", [⟨"a", 0, "i"⟩]), ("j", [⟨"b", 0, "j"⟩])]⟩
    ⟨["i", "j"], [("j", [⟨"b", 0, "j"⟩]), ("i", [⟨"a", 0, "i"⟩])]⟩ ⟨[("a", 1)]⟩
    rfl (by decide) (by decide)
    (fun n => by
      by_cases h1 : "i" = n <;> by_cases h2 : "j" = n <;>
        first
          | (exact absurd (h1.trans h2.symm) (by decide))
          | simp [alLookup, h1, h2])

theorem uses_index_mk (name : String) (p : Bool) (c : List RicciAlternative) :
    uses_index name (.mk p c) = uses_index_content name c := by
  rw [uses_index]

theorem uses_content_append (name : String) (l₁ l₂ : List RicciAlternative) :
    uses_index_content name (l₁ ++ l₂)
      = (uses_index_content name l₁ || uses_index_content name l₂) := by
  induction l₁ with
  | nil => simp [uses_index_content]
  | cons alt rest ih =>
    rw [List.cons_append]
    cases alt with
    | func f =>
      simp only [uses_index_content]
      rw [ih, Bool.or_assoc]
    | tree t =>
      simp only [uses_index_content]
      rw [ih, Bool.or_assoc]
    | seq s2 =>
      simp only [uses_index_content]
      rw [ih, Bool.or_assoc]
    | tensorAccess tn idxs =>
      simp only [uses_index_content]
      rw [ih, Bool.or_assoc]

theorem uses_content_identElems (name : String) (l : List String) :
    uses_index_content name (l.map identElem) = false := by
  induction l with
  | nil => simp [uses_index_content]
  | cons n rest ih =>
    rw [List.map_cons]
    simp only [uses_index_content]
    simpa [identElem] using ih

theorem takeIdentRun_decomp (l : List RicciAlternative) :
    l = (takeIdentRun l).1.map identElem ++ (takeIdentRun l).2 := by
  induction l with
  | nil => rfl
  | cons alt rest ih =>
    cases alt with
    | tree t =>
      cases t with
      | ident n =>
        rcases htr : takeIdentRun rest with ⟨run, r⟩
        rw [takeIdentRun, htr]
        rw [htr] at ih
        simp only [List.map_cons, List.cons_append]
        rw [← ih]
        simp [identElem]
      | punct c => simp [takeIdentRun]
      | literal v => simp [takeIdentRun]
      | group d s => simp [takeIdentRun]
    | func f => simp [takeIdentRun]
    | seq s => simp [takeIdentRun]
    | tensorAccess tn idxs => simp [takeIdentRun]

theorem extract_uses (name : String) (s : RicciSequence) (inv : List String)
    (s' : RicciSequence) (h : s.extract_previous_identifiers = (inv, s')) :
    uses_index_content name s.content = uses_index_content name s'.content := by
  rcases htr : takeIdentRun s.content.reverse with ⟨run, restRev⟩
  rw [RicciSequence.extract_previous_identifiers, htr] at h
  simp at h
  obtain ⟨hrun, hs'⟩ := h
  have hdec := takeIdentRun_decomp s.content.reverse
  rw [htr] at hdec
  have hc : s.content = restRev.reverse ++ run.reverse.map identElem := by
    have hrev := congrArg List.reverse hdec
    rw [List.reverse_reverse] at hrev
    rw [hrev, List.reverse_append]
    congr 1
    simp
  rw [hc, uses_content_append, uses_content_identElems, Bool.or_false, ← hs']
  simp [RicciSequence.content]

theorem getLast_tree_uses (name : String) (l : List RicciAlternative) (t : TokenTree)
    (h : l.getLast? = some (.tree t)) :
    uses_index_content name l = uses_index_content name l.dropLast := by
  obtain ⟨l', rfl⟩ := List.getLast?_eq_some_iff.mp h
  rw [List.dropLast_concat, uses_content_append]
  rw [uses_index_content, uses_index_content]
  simp

theorem alLookup_append {α : Type} (m₁ m₂ : List (String × α)) (key : String) :
    alLookup (m₁ ++ m₂) key
      = match alLookup m₁ key with
        | some v => some v
        | none => alLookup m₂ key := by
  induction m₁ with
  | nil => rw [List.nil_append]; rfl
  | cons kv rest ih =>
    obtain ⟨k, v⟩ := kv
    rw [List.cons_append]
    by_cases hk : k = key
    · rw [alLookup, if_pos hk, alLookup, if_pos hk]
    · rw [alLookup, if_neg hk, alLookup, if_neg hk, ih]

theorem alModify_isSome {α : Type} (m : List (String × α)) (k : String) (f : α → α)
    (key : String) :
    (alLookup (alModify m k f) key).isSome = (alLookup m key).isSome := by
  induction m with
  | nil => rfl
  | cons kv rest ih =>
    obtain ⟨k', v⟩ := kv
    rw [alModify]
    by_cases hk : k' = k
    · rw [if_pos hk]
      by_cases hkey : k' = key
      · rw [alLookup, if_pos hkey, alLookup, if_pos hkey]
        simp
      · rw [alLookup, if_neg hkey, alLookup, if_neg hkey]
    · rw [if_neg hk]
      by_cases hkey : k' = key
      · rw [alLookup, if_pos hkey, alLookup, if_pos hkey]
      · rw [alLookup, if_neg hkey, alLookup, if_neg hkey, ih]

theorem declare_all_corr (names : List String) (iu iu' : IndexUse)
    (h : declare_all iu names = .ok iu') : iu'.correspondence = iu.correspondence := by
  induction names generalizing iu with
  | nil =>
    rw [declare_all] at h
    simp at h
    rw [← h]
  | cons n rest ih =>
    rw [declare_all] at h
    by_cases hc : n ∈ iu.indexes_in_order
    · simp [IndexUse.declare_new, hc] at h
    · simp [IndexUse.declare_new, hc] at h
      exact (ih ⟨iu.indexes_in_order ++ [n], iu.correspondence⟩ h : _)

theorem push_isSome (iu : IndexUse) (idx tn : String) (pos : Nat) (name : String) :
    (alLookup (iu.push idx tn pos).1.correspondence name).isSome = true →
      (alLookup iu.correspondence name).isSome = true ∨ name = idx := by
  rcases hl : alLookup iu.correspondence idx with _ | ps
  · by_cases hc : iu.indexes_in_order.contains idx = true
    · simp only [IndexUse.push, hl, hc, if_true]
      intro h
      rw [alLookup_append] at h
      rcases hcase : alLookup iu.correspondence name with _ | v
      · rw [hcase] at h
        simp [alLookup] at h
        exact Or.inr h.symm
      · exact Or.inl rfl
    · simp only [IndexUse.push, hl, hc, if_false]
      intro h
      exact Or.inl h
  · simp only [IndexUse.push, hl]
    intro h
    rw [alModify_isSome] at h
    exact Or.inl h

theorem push_all_isSome (idxs : List String) (iu iu' : IndexUse) (tn : String)
    (pos : Nat) (name : String) (h : push_all iu tn pos idxs = .ok iu')
    (hs : (alLookup iu'.correspondence name).isSome = true) :
    (alLookup iu.correspondence name).isSome = true ∨ name ∈ idxs := by
  induction idxs generalizing iu pos with
  | nil =>
    rw [push_all] at h
    simp at h
    rw [← h] at hs
    exact Or.inl hs
  | cons idx rest ih =>
    rw [push_all] at h
    rcases hp : (iu.push idx tn pos).2 with _ | _
    · rw [hp] at h; simp at h
    · rw [hp] at h
      simp only [if_pos rfl] at h
      rcases ih _ (pos + 1) h with hin | hmem
      · rcases push_isSome iu idx tn pos name hin with h1 | h2
        · exact Or.inl h1
        · exact Or.inr (h2 ▸ List.mem_cons_self _ _)
      · exact Or.inr (List.mem_cons_of_mem _ hmem)

theorem intoIterGo_none (order : List String)
    (corr : List (String × List RicciPosition)) (n : String) (hn : n ∈ order)
    (hnone : alLookup corr n = none) : intoIterGo order corr = none := by
  induction order generalizing corr with
  | nil => simp at hn
  | cons m rest ih =>
    rcases hr : alRemove corr m with _ | ⟨ps, corr'⟩
    · rw [intoIterGo, hr]
    · obtain ⟨hl, hpres⟩ := alRemove_some corr m ps corr' hr
      have hnm : n ≠ m := by
        intro hh
        rw [hh, hl] at hnone
        simp at hnone
      have hn' : n ∈ rest := by
        rcases List.mem_cons.mp hn with hh | hh
        · exact absurd hh hnm
        · exact hh
      rw [intoIterGo, hr]
      simp only []
      rw [ih corr' hn' (by rw [hpres n hnm, hnone])]
      rfl

theorem uses_index_eq_content (name : String) (s : RicciSequence) :
    uses_index name s = uses_index_content name s.content := by
  cases s with
  | mk p c => rw [uses_index_mk, RicciSequence.content]

theorem uses_push_token (name : String) (s : RicciSequence) (t : TokenTree) :
    uses_index name (s.push_token t) = uses_index name s := by
  rw [uses_index_eq_content, uses_index_eq_content, RicciSequence.push_token,
    RicciSequence.content, uses_content_append]
  simp [uses_index_content]

theorem parse_sequence_uses_mono (toks : List TokenTree) (seq : RicciSequence)
    (iu : IndexUse) (tu : TensorUse) (name : String) :
    ∀ s' iu' tu', parse_sequence toks seq iu tu = .ok (s', iu', tu') →
      uses_index name seq = true → uses_index name s' = true := by
  induction toks, seq, iu, tu using parse_sequence.induct with
  | case1 seq iu tu =>
    intro s' iu' tu' h hu
    rw [parse_sequence] at h
    simp at h
    rw [← h.1]
    exact hu
  | case2 rest seq iu tu =>
    intro s' iu' tu' h hu
    simp [parse_sequence] at h
  | case3 rest seq iu tu inv seq2 hext e hdecl hne =>
    intro s' iu' tu' h hu
    simp [parse_sequence, hext, hdecl] at h
  | case4 rest seq iu tu inv seq2 hext iu0 hdecl e hrec hne ih =>
    intro s' iu' tu' h hu
    simp [parse_sequence, hext, hdecl, hrec] at h
  | case5 rest seq iu tu inv seq2 hext iu0 hdecl ns iu'' tu' hrec hne ih =>
    intro s' iu2 tu2 h hu
    simp [parse_sequence, hext, hdecl, hrec] at h
    rw [← h.1, uses_index_eq_content, RicciSequence.content, uses_content_append]
    rw [uses_index_eq_content] at hu
    rw [extract_uses name seq inv seq2 hext] at hu
    simp [hu]
  | case6 c rest seq iu tu hc hd ih =>
    intro s' iu' tu' h hu
    rw [parse_sequence, if_neg hc, if_neg hd] at h
    exact ih s' iu' tu' h (by rw [uses_push_token]; exact hu)
  | case7 stream tail x x1 x2 =>
    intro s' iu' tu' h hu
    simp [parse_sequence] at h
  | case8 stream rest seq iu tu tn hlast e hpt =>
    intro s' iu' tu' h hu
    simp [parse_sequence, hlast, hpt] at h
  | case9 stream rest seq iu tu tn hlast idxs hpt e hpush =>
    intro s' iu' tu' h hu
    simp [parse_sequence, hlast, hpt, hpush] at h
  | case10 stream rest seq iu tu tn hlast idxs hpt iu0 hpush r hr ih =>
    intro s' iu' tu' h hu
    have hr' : (tu.update_order tn idxs.length).2 = true := by simpa using hr
    rw [parse_sequence, hlast] at h
    simp only [hpt, hpush, hr', if_true] at h
    refine ih s' iu' tu' h ?_
    rw [uses_index_eq_content, RicciSequence.content, uses_content_append]
    rw [uses_index_eq_content, getLast_tree_uses name seq.content _ hlast] at hu
    simp [hu]
  | case11 stream rest seq iu tu tn hlast idxs hpt iu0 hpush r hr =>
    intro s' iu' tu' h hu
    have hr' : (tu.update_order tn idxs.length).2 = false := by simpa using hr
    simp [parse_sequence, hlast, hpt, hpush, hr'] at h
  | case12 stream rest seq iu tu hno =>
    intro s' iu' tu' h hu
    rcases hl : seq.content.getLast? with _ | alt
    · simp [parse_sequence, hl] at h
    · cases alt with
      | func f => simp [parse_sequence, hl] at h
      | seq s2 => simp [parse_sequence, hl] at h
      | tensorAccess n2 idxs => simp [parse_sequence, hl] at h
      | tree t =>
        cases t with
        | ident n2 => exact (hno n2 hl).elim
        | punct c => simp [parse_sequence, hl] at h
        | literal v => simp [parse_sequence, hl] at h
        | group d s2 => simp [parse_sequence, hl] at h
  | case13 d stream rest seq iu tu hb hk nseq e hsub ihsub =>
    intro s' iu' tu' h hu
    cases d with
    | brace => exact absurd rfl hb
    | bracket => exact absurd rfl hk
    | parenthesis =>
      have hs : parse_sequence stream RicciSequence.with_parens iu tu = .error e := by
        simpa using hsub
      simp [parse_sequence, hs] at h
    | noneDelim =>
      have hs : parse_sequence stream RicciSequence.naked iu tu = .error e := by
        simpa using hsub
      simp [parse_sequence, hs] at h
  | case14 d stream rest seq iu tu hb hk nseq ns iu'' tu' hsub ihsub ihrest =>
    intro s' iu2 tu2 h hu
    have hukeep : uses_index name
        (RicciSequence.mk seq.use_parens (seq.content ++ [.seq ns])) = true := by
      rw [uses_index_eq_content, RicciSequence.content, uses_content_append]
      rw [uses_index_eq_content] at hu
      simp [hu]
    cases d with
    | brace => exact absurd rfl hb
    | bracket => exact absurd rfl hk
    | parenthesis =>
      have hs : parse_sequence stream RicciSequence.with_parens iu tu
          = .ok (ns, iu'', tu') := by simpa using hsub
      rw [show parse_sequence (TokenTree.group Delimiter.parenthesis stream :: rest) seq iu tu
          = parse_sequence rest
              (RicciSequence.mk seq.use_parens (seq.content ++ [RicciAlternative.seq ns]))
              iu'' tu' by simp [parse_sequence, hs]] at h
      exact ihrest s' iu2 tu2 h hukeep
    | noneDelim =>
      have hs : parse_sequence stream RicciSequence.naked iu tu
          = .ok (ns, iu'', tu') := by simpa using hsub
      rw [show parse_sequence (TokenTree.group Delimiter.noneDelim stream :: rest) seq iu tu
          = parse_sequence rest
              (RicciSequence.mk seq.use_parens (seq.content ++ [RicciAlternative.seq ns]))
              iu'' tu' by simp [parse_sequence, hs]] at h
      exact ihrest s' iu2 tu2 h hukeep
  | case15 t rest seq iu tu hp hgb hgk hgd ih =>
    intro s' iu' tu' h hu
    cases t with
    | ident n2 =>
      rw [show parse_sequence (TokenTree.ident n2 :: rest) seq iu tu
          = parse_sequence rest (seq.push_token (TokenTree.ident n2)) iu tu by
        simp [parse_sequence]] at h
      exact ih s' iu' tu' h (by rw [uses_push_token]; exact hu)
    | literal v =>
      rw [show parse_sequence (TokenTree.literal v :: rest) seq iu tu
          = parse_sequence rest (seq.push_token (TokenTree.literal v)) iu tu by
        simp [parse_sequence]] at h
      exact ih s' iu' tu' h (by rw [uses_push_token]; exact hu)
    | punct c => exact absurd rfl (hp c)
    | group d s2 => exact absurd rfl (hgd d s2)

theorem parse_sequence_corr_isSome (toks : List TokenTree) (seq : RicciSequence)
    (iu : IndexUse) (tu : TensorUse) (name : String) :
    ∀ s' iu' tu', parse_sequence toks seq iu tu = .ok (s', iu', tu') →
      (alLookup iu'.correspondence name).isSome = true →
      (alLookup iu.correspondence name).isSome = true ∨ uses_index name s' = true := by
  induction toks, seq, iu, tu using parse_sequence.induct with
  | case1 seq iu tu =>
    intro s' iu' tu' h hs
    rw [parse_sequence] at h
    simp at h
    rw [← h.2.1] at hs
    exact Or.inl hs
  | case2 rest seq iu tu =>
    intro s' iu' tu' h hs
    simp [parse_sequence] at h
  | case3 rest seq iu tu inv seq2 hext e hdecl hne =>
    intro s' iu' tu' h hs
    simp [parse_sequence, hext, hdecl] at h
  | case4 rest seq iu tu inv seq2 hext iu0 hdecl e hrec hne ih =>
    intro s' iu' tu' h hs
    simp [parse_sequence, hext, hdecl, hrec] at h
  | case5 rest seq iu tu inv seq2 hext iu0 hdecl ns iu'' tu' hrec hne ih =>
    intro s' iu2 tu2 h hs
    simp [parse_sequence, hext, hdecl, hrec] at h
    obtain ⟨h1, h2, h3⟩ := h
    rw [← h2] at hs
    rcases ih ns iu'' tu' hrec hs with hin | huse
    · rw [declare_all_corr _ _ _ hdecl] at hin
      exact Or.inl hin
    · refine Or.inr ?_
      rw [← h1, uses_index_eq_content, RicciSequence.content, uses_content_append]
      have hfunc : uses_index_content name [RicciAlternative.func (.mk inv ns)] = true := by
        simp only [uses_index_content, uses_index_func]
        simp [huse]
      simp [hfunc]
  | case6 c rest seq iu tu hc hd ih =>
    intro s' iu' tu' h hs
    rw [parse_sequence, if_neg hc, if_neg hd] at h
    exact ih s' iu' tu' h hs
  | case7 stream tail x x1 x2 =>
    intro s' iu' tu' h hs
    simp [parse_sequence] at h
  | case8 stream rest seq iu tu tn hlast e hpt =>
    intro s' iu' tu' h hs
    simp [parse_sequence, hlast, hpt] at h
  | case9 stream rest seq iu tu tn hlast idxs hpt e hpush =>
    intro s' iu' tu' h hs
    simp [parse_sequence, hlast, hpt, hpush] at h
  | case10 stream rest seq iu tu tn hlast idxs hpt iu0 hpush r hr ih =>
    intro s' iu2 tu2 h hs
    have hr' : (tu.update_order tn idxs.length).2 = true := by simpa using hr
    rw [parse_sequence, hlast] at h
    simp only [hpt, hpush, hr', if_true] at h
    rcases ih s' iu2 tu2 h hs with hin | huse
    · rcases push_all_isSome idxs iu iu0 tn 0 name hpush hin with h1 | h2
      · exact Or.inl h1
      · refine Or.inr (parse_sequence_uses_mono rest _ iu0 _ name s' iu2 tu2 h ?_)
        rw [uses_index_eq_content, RicciSequence.content, uses_content_append]
        have hacc : uses_index_content name [RicciAlternative.tensorAccess tn idxs] = true := by
          simp only [uses_index_content]
          simp [h2]
        simp [hacc]
    · exact Or.inr huse
  | case11 stream rest seq iu tu tn hlast idxs hpt iu0 hpush r hr =>
    intro s' iu' tu' h hs
    have hr' : (tu.update_order tn idxs.length).2 = false := by simpa using hr
    simp [parse_sequence, hlast, hpt, hpush, hr'] at h
  | case12 stream rest seq iu tu hno =>
    intro s' iu' tu' h hs
    rcases hl : seq.content.getLast? with _ | alt
    · simp [parse_sequence, hl] at h
    · cases alt with
      | func f => simp [parse_sequence, hl] at h
      | seq s2 => simp [parse_sequence, hl] at h
      | tensorAccess n2 idxs => simp [parse_sequence, hl] at h
      | tree t =>
        cases t with
        | ident n2 => exact (hno n2 hl).elim
        | punct c => simp [parse_sequence, hl] at h
        | literal v => simp [parse_sequence, hl] at h
        | group d s2 => simp [parse_sequence, hl] at h
  | case13 d stream rest seq iu tu hb hk nseq e hsub ihsub =>
    intro s' iu' tu' h hs
    cases d with
    | brace => exact absurd rfl hb
    | bracket => exact absurd rfl hk
    | parenthesis =>
      have hse : parse_sequence stream RicciSequence.with_parens iu tu = .error e := by
        simpa using hsub
      simp [parse_sequence, hse] at h
    | noneDelim =>
      have hse : parse_sequence stream RicciSequence.naked iu tu = .error e := by
        simpa using hsub
      simp [parse_sequence, hse] at h
  | case14 d stream rest seq iu tu hb hk nseq ns iu'' tu' hsub ihsub ihrest =>
    intro s' iu2 tu2 h hs
    have husekeep : uses_index name ns = true →
        uses_index name
          (RicciSequence.mk seq.use_parens (seq.content ++ [.seq ns])) = true := by
      intro huns
      rw [uses_index_eq_content, RicciSequence.content, uses_content_append]
      have hsub2 : uses_index_content name [RicciAlternative.seq ns] = true := by
        simp only [uses_index_content]
        simp [huns]
      simp [hsub2]
    cases d with
    | brace => exact absurd rfl hb
    | bracket => exact absurd rfl hk
    | parenthesis =>
      have hso : parse_sequence stream RicciSequence.with_parens iu tu
          = .ok (ns, iu'', tu') := by simpa using hsub
      rw [show parse_sequence (TokenTree.group Delimiter.parenthesis stream :: rest) seq iu tu
          = parse_sequence rest
              (RicciSequence.mk seq.use_parens (seq.content ++ [RicciAlternative.seq ns]))
              iu'' tu' by simp [parse_sequence, hso]] at h
      rcases ihrest s' iu2 tu2 h hs with hin'' | huse
      · rcases ihsub ns iu'' tu' hsub hin'' with hin | husesub
        · exact Or.inl hin
        · exact Or.inr (parse_sequence_uses_mono rest _ iu'' tu' name s' iu2 tu2 h
            (husekeep husesub))
      · exact Or.inr huse
    | noneDelim =>
      have hso : parse_sequence stream RicciSequence.naked iu tu
          = .ok (ns, iu'', tu') := by simpa using hsub
      rw [show parse_sequence (TokenTree.group Delimiter.noneDelim stream :: rest) seq iu tu
          = parse_sequence rest
              (RicciSequence.mk seq.use_parens (seq.content ++ [RicciAlternative.seq ns]))
              iu'' tu' by simp [parse_sequence, hso]] at h
      rcases ihrest s' iu2 tu2 h hs with hin'' | huse
      · rcases ihsub ns iu'' tu' hsub hin'' with hin | husesub
        · exact Or.inl hin
        · exact Or.inr (parse_sequence_uses_mono rest _ iu'' tu' name s' iu2 tu2 h
            (husekeep husesub))
      · exact Or.inr huse
  | case15 t rest seq iu tu hp hgb hgk hgd ih =>
    intro s' iu' tu' h hs
    cases t with
    | ident n2 =>
      rw [show parse_sequence (TokenTree.ident n2 :: rest) seq iu tu
          = parse_sequence rest (seq.push_token (TokenTree.ident n2)) iu tu by
        simp [parse_sequence]] at h
      exact ih s' iu' tu' h hs
    | literal v =>
      rw [show parse_sequence (TokenTree.literal v :: rest) seq iu tu
          = parse_sequence rest (seq.push_token (TokenTree.literal v)) iu tu by
        simp [parse_sequence]] at h
      exact ih s' iu' tu' h hs
    | punct c => exact absurd rfl (hp c)
    | group d s2 => exact absurd rfl (hgd d s2)

/-- C10: if a successfully parsed input declares an index name that is
never used as a subscript in any `TensorAccess` of the resulting tree,
then `sequentialize` panics (modelled as `none`): the registry iteration
unwraps the missing usage entry for that name instead of returning
generated code or a structured error. -/
theorem c10_unused_index_panics (input : List TokenTree) (s : RicciSequence)
    (iu : IndexUse) (tu : TensorUse) (name : String)
    (hparse : parse input = .ok (s, iu, tu))
    (hdecl : name ∈ iu.indexes_in_order)
    (hunused : uses_index name s = false) :
    sequentialize s iu tu = none := by
  have hnone : alLookup iu.correspondence name = none := by
    rcases hl : alLookup iu.correspondence name with _ | ps
    · rfl
    · exfalso
      have hsome : (alLookup iu.correspondence name).isSome = true := by rw [hl]; rfl
      rcases parse_sequence_corr_isSome input RicciSequence.initial IndexUse.new
          TensorUse.new name s iu tu hparse hsome with hin | huse
      · simp [IndexUse.new, alLookup] at hin
      · rw [huse] at hunused
        exact absurd hunused (by simp)
  have hii : iu.intoIter = none := by
    rw [IndexUse.intoIter]
    exact intoIterGo_none iu.indexes_in_order iu.correspondence name hdecl hnone
  have hheader : sequentialize_header iu tu = none := by
    rw [sequentialize_header, hii]
  rw [sequentialize, hheader]
  rfl

/-- Witness for C10: the input `i j $ a[i]` parses successfully, declares
`j`, never subscripts with `j`, and sequentialization panics. -/
theorem c10_witness :
    sequentialize
        ⟨false, [.func (.mk ["j", "i"] ⟨false, [.tensorAccess "a" ["i"]]⟩)]⟩
        ⟨["i", "j"], [("i", [⟨"a", 0, "i"⟩])]⟩ ⟨[("a", 1)]⟩ = none :=
  c10_unused_index_panics
    [.ident "i", .ident "j", .punct '$', .ident "a", .group .bracket [.ident "i"]]
    ⟨false, [.func (.mk ["j", "i"] ⟨false, [.tensorAccess "a" ["i"]]⟩)]⟩
    ⟨["i", "j"], [("i", [⟨"a", 0, "i"⟩])]⟩ ⟨[("a", 1)]⟩ "j"
    (by rw [parse, ← parse_sequence_fuel_spec _ _ _ _ 2000 (by decide)]; rfl)
    (by simp)
    (by simp [uses_index, uses_index_content, uses_index_func])

end Tensorism
